import Mathlib

/-!
Shallow embedding of `opm/simulators/linalg/bda/rocm/hipKernels.cpp` (OPM).

Modelling conventions:
* `double` scalars are modelled as `ℚ`: the properties below are about which
  terms each kernel combines, and the spec's "equal within tolerance" is exact
  equality in this idealised arithmetic.
* Device arrays are total functions `ℕ → ℚ` (index arrays are `ℕ → ℕ`); a
  kernel denotes the final contents of the array it writes.
* Every device loop is embedded structurally with an explicit fuel argument,
  always instantiated large enough to cover the real iteration count (the
  lemmas discharge fuel sufficiency).  This keeps all definitions executable.
* A `__global__` kernel launched with `gridDim` thread groups of `blockDim`
  threads is embedded as the sequential composition of its cooperating units
  (threads for the element-wise kernels, workgroups for `spmv_k`/`residual_k`,
  warps for `residual_blocked_k`).  These kernels only write values that are
  functions of the read-only inputs and of the written position (and the `+=`
  kernels touch each position at most once under the launch configurations of
  the host wrappers), so the sequential order is exact.
* The intra-warp reductions (`tmp[lane] += tmp[lane + offset]` executed in
  lockstep, and the `__syncthreads`-separated halving loop) are modelled as
  simultaneous array updates, which is the lockstep/barrier semantics.  The
  group-shared scratch array `tmp` is modelled per cooperating unit; this is
  exact when each thread group holds a single such unit (the scalar kernels'
  per-group work, and warps when `blockDim = warpsize`), and when at most one
  warp of a group is active.  Two width-32 warps co-resident in a 64-thread
  group race on `tmp[0..31]`; that configuration is a data race this
  sequential embedding does not model, and no theorem below is about it.
-/

namespace HipK

/-- Modelled from the spec: `Opm::Accelerator::ceilDivision` (declared in
`opm/simulators/linalg/bda/Misc.hpp`, which is not part of this corpus) is the
ceiling integer division used by every host wrapper to size the launch grid. -/
def ceilDivision (A B : ℕ) : ℕ := (A + B - 1) / B

/-- Fuelled for-loop sum: `for (j = pos; j < stop; j += step) acc += g j`.
The fuel bounds the iteration count; callers pass at least `stop - pos`. -/
def forSum (g : ℕ → ℚ) (stop step : ℕ) : ℕ → ℕ → ℚ
  | 0, _ => 0
  | fuel + 1, pos => if pos < stop then g pos + forSum g stop step fuel (pos + step) else 0

/-- One step of the halving tree reduction of `spmv_k` / `residual_k`:
`if (idx_t < offset) tmp[idx_t] += tmp[idx_t + offset]`, all lanes at once
(the reads are at `idx_t + offset ≥ offset`, slots that are not written in
this step, so the simultaneous update is exact). -/
def hstep (offset : ℕ) (f : ℕ → ℚ) : ℕ → ℚ :=
  fun i => if i < offset then f i + f (i + offset) else f i

/-- The reduction loop of `spmv_k`/`residual_k`:
`offset = bsize/2; while (offset > 0) { hstep; offset = offset / 2; }`. -/
def hloopF : ℕ → ℕ → (ℕ → ℚ) → (ℕ → ℚ)
  | 0, _, f => f
  | fuel + 1, offset, f => if 0 < offset then hloopF fuel (offset / 2) (hstep offset f) else f

/-- One step of the blocked reduction of `residual_blocked_k`:
`if (lane + offset < warpsize) tmp[lane] += tmp[lane + offset]`, all lanes of
the warp in lockstep (SIMD loads complete before any store). -/
def bstep (w offset : ℕ) (f : ℕ → ℚ) : ℕ → ℚ :=
  fun lane => if lane + offset < w then f lane + f (lane + offset) else f lane

/-- The reduction loop of `residual_blocked_k`:
`for (offset = 3; offset <= offsetTarget; offset <<= 1) { bstep }`. -/
def bloopF (w target : ℕ) : ℕ → ℕ → (ℕ → ℚ) → (ℕ → ℚ)
  | 0, _, f => f
  | fuel + 1, offset, f =>
      if offset ≤ target then bloopF w target fuel (2 * offset) (bstep w offset f) else f

/-- The grid-stride loop of one cooperating unit:
`while (pos < N) { body; pos += stride; }` where `stride` is the kernel's
`NUM_THREADS` (resp. `num_workgroups`, `num_warps_in_grid`) and `upd pos` is
the body's effect on the output array. -/
def strideLoop (N stride : ℕ) (upd : ℕ → (ℕ → ℚ) → (ℕ → ℚ)) : ℕ → ℕ → (ℕ → ℚ) → (ℕ → ℚ)
  | 0, _, out => out
  | fuel + 1, pos, out =>
      if pos < N then strideLoop N stride upd fuel (pos + stride) (upd pos out) else out

/-- A whole launch: units `0, 1, …, T-1` each run their grid-stride loop,
starting at their own global id (`blockDim.x*blockIdx.x + threadIdx.x`
enumerates `0 … gridDim*blockDim - 1` exactly once; workgroup and warp ids
likewise).  Composed sequentially, which is exact for these kernels. -/
def grid (N stride : ℕ) (upd : ℕ → (ℕ → ℚ) → (ℕ → ℚ)) (fuel : ℕ) : ℕ → (ℕ → ℚ) → (ℕ → ℚ)
  | 0, out => out
  | T + 1, out => strideLoop N stride upd fuel T (grid N stride upd fuel T out)

/-- Canonical shape of a pure-write kernel body: work item `tbr` overwrites
exactly the positions `i` with `i / bs = tbr`, with a value `v i` that depends
only on the position and the read-only inputs. -/
def rowSetDiv (bs : ℕ) (v : ℕ → ℚ) (tbr : ℕ) (out : ℕ → ℚ) : ℕ → ℚ :=
  fun i => if i / bs = tbr then v i else out i

/-- Canonical shape of an accumulate kernel body: work item `pos` adds `d pos`
at position `t pos`, which depends only on the claimed index. -/
def pointUpd (t : ℕ → ℕ) (d : ℕ → ℚ) (pos : ℕ) (out : ℕ → ℚ) : ℕ → ℚ :=
  fun i => if i = t pos then out (t pos) + d pos else out i

/-! ### `vmul_k` and `HipKernels::vmul` -/

/-- Body of `vmul_k` at claimed index `idx`:
`out[idx] += alpha * in1[idx] * in2[idx]`. -/
def vmul_body (alpha : ℚ) (in1 in2 : ℕ → ℚ) (idx : ℕ) (out : ℕ → ℚ) : ℕ → ℚ :=
  fun i => if i = idx then out idx + alpha * in1 idx * in2 idx else out i

/-- `vmul_k` launched with `gridDim` groups of `blockDim` threads; each thread
starts at its global id and strides by `NUM_THREADS = gridDim.x`. -/
def vmul_k (gridDim blockDim : ℕ) (alpha : ℚ) (in1 in2 out : ℕ → ℚ) (N : ℕ) : ℕ → ℚ :=
  grid N gridDim (vmul_body alpha in1 in2) N (gridDim * blockDim) out

/-- `HipKernels::vmul`: `blockDim = 64`, `gridDim = ceilDivision(N,64) * 64`. -/
def HipKernels_vmul (alpha : ℚ) (in1 in2 out : ℕ → ℚ) (N : ℕ) : ℕ → ℚ :=
  vmul_k (ceilDivision N 64 * 64) 64 alpha in1 in2 out N

/-! ### `full_to_pressure_restriction_k` and its host wrapper -/

/-- Body of `full_to_pressure_restriction_k` at block row `tbr`
(`block_size` is the hardcoded constant `3` of the kernel):
`coarse_y[tbr] = Σ_{i<3} fine_y[3*tbr+i] * weights[3*tbr+i]`. -/
def full_to_pressure_restriction_body (fine_y weights : ℕ → ℚ) (tbr : ℕ)
    (coarse_y : ℕ → ℚ) : ℕ → ℚ :=
  fun i => if i = tbr then
    ∑ k ∈ Finset.range 3, fine_y (3 * tbr + k) * weights (3 * tbr + k)
  else coarse_y i

/-- `full_to_pressure_restriction_k`, one work item per block row. -/
def full_to_pressure_restriction_k (gridDim blockDim : ℕ) (fine_y weights coarse_y : ℕ → ℚ)
    (Nb : ℕ) : ℕ → ℚ :=
  grid Nb gridDim (full_to_pressure_restriction_body fine_y weights) Nb
    (gridDim * blockDim) coarse_y

/-- `HipKernels::full_to_pressure_restriction`. -/
def HipKernels_full_to_pressure_restriction (fine_y weights coarse_y : ℕ → ℚ) (Nb : ℕ) :
    ℕ → ℚ :=
  full_to_pressure_restriction_k (ceilDivision Nb 64 * 64) 64 fine_y weights coarse_y Nb

/-! ### `add_coarse_pressure_correction_k` and its host wrapper -/

/-- Body of `add_coarse_pressure_correction_k` at block row `tbr`
(`block_size` is the hardcoded constant `3`):
`fine_x[tbr*3 + pressure_idx] += coarse_x[tbr]`. -/
def add_coarse_pressure_correction_body (coarse_x : ℕ → ℚ) (pressure_idx tbr : ℕ)
    (fine_x : ℕ → ℚ) : ℕ → ℚ :=
  fun i => if i = tbr * 3 + pressure_idx then
    fine_x (tbr * 3 + pressure_idx) + coarse_x tbr
  else fine_x i

/-- `add_coarse_pressure_correction_k`, one work item per block row. -/
def add_coarse_pressure_correction_k (gridDim blockDim : ℕ) (coarse_x fine_x : ℕ → ℚ)
    (pressure_idx Nb : ℕ) : ℕ → ℚ :=
  grid Nb gridDim (add_coarse_pressure_correction_body coarse_x pressure_idx) Nb
    (gridDim * blockDim) fine_x

/-- `HipKernels::add_coarse_pressure_correction`. -/
def HipKernels_add_coarse_pressure_correction (coarse_x fine_x : ℕ → ℚ)
    (pressure_idx Nb : ℕ) : ℕ → ℚ :=
  add_coarse_pressure_correction_k (ceilDivision Nb 64 * 64) 64 coarse_x fine_x
    pressure_idx Nb

/-! ### `prolongate_vector_k` and its host wrapper -/

/-- Body of `prolongate_vector_k` at row `row`: `out[row] += in[cols[row]]`. -/
def prolongate_vector_body (inV : ℕ → ℚ) (cols : ℕ → ℕ) (row : ℕ) (out : ℕ → ℚ) : ℕ → ℚ :=
  fun i => if i = row then out row + inV (cols row) else out i

/-- `prolongate_vector_k`, one work item per row. -/
def prolongate_vector_k (gridDim blockDim : ℕ) (inV out : ℕ → ℚ) (cols : ℕ → ℕ)
    (N : ℕ) : ℕ → ℚ :=
  grid N gridDim (prolongate_vector_body inV cols) N (gridDim * blockDim) out

/-- `HipKernels::prolongate_vector`. -/
def HipKernels_prolongate_vector (inV out : ℕ → ℚ) (cols : ℕ → ℕ) (N : ℕ) : ℕ → ℚ :=
  prolongate_vector_k (ceilDivision N 64 * 64) 64 inV out cols N

/-! ### `spmv_k`, `residual_k` (scalar CSR path) and their host wrappers -/

/-- The value one workgroup of `spmv_k`/`residual_k` computes for CSR row
`row`: every thread `t < bsize` accumulates `vals[j] * x[cols[j]]` over
`j = rows[row] + t, + bsize, …  < rows[row+1]` into `tmp[t]`, then the halving
tree reduction leaves the row sum in `tmp[0]`.  The two kernels' traversal and
reduction code is textually identical in the source, so it is shared here. -/
def scalar_row (vals : ℕ → ℚ) (cols rows : ℕ → ℕ) (x : ℕ → ℚ) (bsize row : ℕ) : ℚ :=
  hloopF bsize (bsize / 2)
    (fun t => forSum (fun j => vals j * x (cols j)) (rows (row + 1)) bsize
      (rows (row + 1) - rows row) (rows row + t)) 0

/-- Body of `spmv_k` at row `row`: `out[row] = tmp[0]` (thread 0 commits). -/
def spmv_body (vals : ℕ → ℚ) (cols rows : ℕ → ℕ) (x : ℕ → ℚ) (bsize row : ℕ)
    (out : ℕ → ℚ) : ℕ → ℚ :=
  fun i => if i = row then scalar_row vals cols rows x bsize row else out i

/-- `spmv_k`: one workgroup per row, workgroup `b` starts at row
`idx_b = b` and strides by `num_workgroups = gridDim.x`. -/
def spmv_k (gridDim blockDim : ℕ) (vals : ℕ → ℚ) (cols rows : ℕ → ℕ) (N : ℕ)
    (x out : ℕ → ℚ) : ℕ → ℚ :=
  grid N gridDim (spmv_body vals cols rows x blockDim) N gridDim out

/-- Body of `residual_k` at row `row`: `out[row] = rhs[row] - tmp[0]`. -/
def residual_body (vals : ℕ → ℚ) (cols rows : ℕ → ℕ) (x rhs : ℕ → ℚ) (bsize row : ℕ)
    (out : ℕ → ℚ) : ℕ → ℚ :=
  fun i => if i = row then rhs row - scalar_row vals cols rows x bsize row else out i

/-- `residual_k`: same traversal as `spmv_k`, final write is
`rhs[row] - tmp[0]`. -/
def residual_k (gridDim blockDim : ℕ) (vals : ℕ → ℚ) (cols rows : ℕ → ℕ) (N : ℕ)
    (x rhs out : ℕ → ℚ) : ℕ → ℚ :=
  grid N gridDim (residual_body vals cols rows x rhs blockDim) N gridDim out

/-- `HipKernels::spmv`.  As in the source, `block_size` is not used: the
scalar kernel `spmv_k` is launched regardless (the source comments that this
wrapper is only used for block size 1; other uses go through rocsparse). -/
def HipKernels_spmv (vals : ℕ → ℚ) (cols rows : ℕ → ℕ) (x y : ℕ → ℚ)
    (Nb block_size : ℕ) : ℕ → ℚ :=
  spmv_k (ceilDivision Nb 64 * 64) 64 vals cols rows Nb x y

/-! ### `residual_blocked_k` -/

/-- The local accumulation of one lane of a warp of `residual_blocked_k` for
block row with block range `[first, last)`:
lanes below `num_active_threads = (warpsize/bs/bs)*bs*bs` accumulate
`x[cols[block]*bs + c] * vals[block*bs*bs + c + r*bs]` over
`block = first + lane/(bs*bs), + num_blocks_per_warp, … < last`, where
`c = (lane/bs) % bs` and `r = lane % bs`; the other lanes contribute `0`. -/
def blocked_local (w bs : ℕ) (vals : ℕ → ℚ) (cols : ℕ → ℕ) (x : ℕ → ℚ)
    (first last lane : ℕ) : ℚ :=
  if lane < w / bs / bs * bs * bs then
    forSum
      (fun block => x (cols block * bs + lane / bs % bs) *
        vals (block * bs * bs + lane / bs % bs + lane % bs * bs))
      last (w / bs / bs) (last - first) (first + lane / (bs * bs))
  else 0

/-- The scratch array a warp of `residual_blocked_k` sees after its reduction
loop, for block row `tbr`: `tmp[lane] = local_out`, then
`for (offset = 3; offset <= offsetTarget; offset <<= 1)` with
`offsetTarget = warpsize == 64 ? 48 : 32`.  The physical `tmp` is the
`extern __shared__` array of the warp's whole thread group; this per-warp
view is exact precisely when no other active warp of the same group touches
that array — when the group holds one warp (`blockDim = warpsize`, as in the
width-64 host launch), or when every other warp of the group claims no block
row (e.g. `Nb = 1`).  A width-32 warp sharing a 64-thread group with another
active warp races on `tmp[0..31]`; that case is not modelled. -/
def residual_blocked_tmp (w bs : ℕ) (vals : ℕ → ℚ) (cols rows : ℕ → ℕ) (x : ℕ → ℚ)
    (tbr : ℕ) : ℕ → ℚ :=
  bloopF w (if w = 64 then 48 else 32) (if w = 64 then 48 else 32) 3
    (fun lane => blocked_local w bs vals cols x (rows tbr) (rows (tbr + 1)) lane)

/-- Body of `residual_blocked_k` at block row `tbr`: lanes `lane < bs` write
`out[tbr*bs + lane] = rhs[tbr*bs + lane] - tmp[lane]`; for `bs > 0` the
written positions are exactly the `i` with `i / bs = tbr`, and the lane is
`i % bs`. -/
def residual_blocked_body (w bs : ℕ) (vals : ℕ → ℚ) (cols rows : ℕ → ℕ) (x rhs : ℕ → ℚ)
    (tbr : ℕ) (out : ℕ → ℚ) : ℕ → ℚ :=
  fun i => if i / bs = tbr then
    rhs i - residual_blocked_tmp w bs vals cols rows x tbr (i % bs)
  else out i

/-- `residual_blocked_k`: one warp per block row; warp `ω` starts at
`target_block_row = idx / warpsize = ω` and strides by
`num_warps_in_grid = NUM_THREADS / warpsize = gridDim.x / warpsize`; there are
`gridDim.x * blockDim.x / warpsize` warps in the launch. -/
def residual_blocked_k (warpsize gridDim blockDim : ℕ) (vals : ℕ → ℚ)
    (cols rows : ℕ → ℕ) (Nb : ℕ) (x rhs out : ℕ → ℚ) (block_size : ℕ) : ℕ → ℚ :=
  grid Nb (gridDim / warpsize) (residual_blocked_body warpsize block_size vals cols rows x rhs)
    Nb (gridDim * blockDim / warpsize) out

/-- `HipKernels::residual`: dispatches on `block_size > 1` between the blocked
and the scalar kernel.  `warpsize` is the hardware `warpSize` (64 on the ROCm
devices this backend targets, 32 on CUDA-like ones). -/
def HipKernels_residual (warpsize : ℕ) (vals : ℕ → ℚ) (cols rows : ℕ → ℕ)
    (x rhs out : ℕ → ℚ) (Nb block_size : ℕ) : ℕ → ℚ :=
  if 1 < block_size then
    residual_blocked_k warpsize (ceilDivision Nb 64 * 64) 64 vals cols rows Nb x rhs out
      block_size
  else
    residual_k (ceilDivision Nb 64 * 64) 64 vals cols rows Nb x rhs out

/-! ### Reference (naive, sequential) computations, from the claims -/

/-- Reference block matrix-vector product, written as in the claims: scalar
output row `i = row*bs + r` is
`Σ_{block ∈ row} Σ_{c < bs} vals[block*bs*bs + r*bs + c] * x[cols[block]*bs + c]`. -/
def refBlockSpmv (bs : ℕ) (vals : ℕ → ℚ) (cols rows : ℕ → ℕ) (x : ℕ → ℚ) (i : ℕ) : ℚ :=
  ∑ block ∈ Finset.Ico (rows (i / bs)) (rows (i / bs + 1)), ∑ c ∈ Finset.range bs,
    vals (block * bs * bs + i % bs * bs + c) * x (cols block * bs + c)

/-- Reference pressure restriction for a general block size `bs`. -/
def refRestrict (bs : ℕ) (fine weights : ℕ → ℚ) (row : ℕ) : ℚ :=
  ∑ k ∈ Finset.range bs, fine (bs * row + k) * weights (bs * row + k)

/-- Reference coarse-correction injection for a general block size `bs`. -/
def refInject (bs : ℕ) (coarse fine : ℕ → ℚ) (p Nb i : ℕ) : ℚ :=
  if i % bs = p ∧ i / bs < Nb then fine i + coarse (i / bs) else fine i

/-! ### The `#else` (no `__HIP__`) branches of the host entry points.
Each throws immediately, before touching any output vector, so an entry point
compiled without device support denotes an `Except.error` carrying the source
message, and never an `Except.ok` with a modified vector. -/

/-- `HipKernels::vmul` without `__HIP__`. -/
def vmul_noHip (alpha : ℚ) (in1 in2 out : ℕ → ℚ) (N : ℕ) : Except String (ℕ → ℚ) :=
  Except.error "Error vmul for rocsparse only supported when compiling with hipcc"

/-- `HipKernels::full_to_pressure_restriction` without `__HIP__`. -/
def full_to_pressure_restriction_noHip (fine_y weights coarse_y : ℕ → ℚ) (Nb : ℕ) :
    Except String (ℕ → ℚ) :=
  Except.error
    "Error full_to_pressure_restriction for rocsparse only supported when compiling with hipcc"

/-- `HipKernels::add_coarse_pressure_correction` without `__HIP__`. -/
def add_coarse_pressure_correction_noHip (coarse_x fine_x : ℕ → ℚ) (pressure_idx Nb : ℕ) :
    Except String (ℕ → ℚ) :=
  Except.error
    "Error add_coarse_pressure_correction for rocsparse only supported when compiling with hipcc"

/-- `HipKernels::prolongate_vector` without `__HIP__`. -/
def prolongate_vector_noHip (inV out : ℕ → ℚ) (cols : ℕ → ℕ) (N : ℕ) :
    Except String (ℕ → ℚ) :=
  Except.error "Error prolongate_vector for rocsparse only supported when compiling with hipcc"

/-- `HipKernels::residual` without `__HIP__`. -/
def residual_noHip (vals : ℕ → ℚ) (cols rows : ℕ → ℕ) (x rhs out : ℕ → ℚ)
    (Nb block_size : ℕ) : Except String (ℕ → ℚ) :=
  Except.error "Error residual for rocsparse only supported when compiling with hipcc"

/-- `HipKernels::spmv` without `__HIP__`. -/
def spmv_noHip (vals : ℕ → ℚ) (cols rows : ℕ → ℕ) (x y : ℕ → ℚ) (Nb block_size : ℕ) :
    Except String (ℕ → ℚ) :=
  Except.error "Error spmv for rocsparse only supported when compiling with hipcc"

/-- The common shape of the six messages: each names its operation. -/
def unsupportedMsg (op : String) : String :=
  "Error " ++ op ++ " for rocsparse only supported when compiling with hipcc"

/-! ### Concrete instances used by the spec's scenarios and by counterexamples -/

/-- The all-zero vector. -/
def zeroV : ℕ → ℚ := fun _ => 0

/-- The all-one vector (unit weights). -/
def oneV : ℕ → ℚ := fun _ => 1

/-- Values of the dense 2×2, block size 1, matrix `[[4,1],[2,3]]` in CSR. -/
def vals2x2 : ℕ → ℚ := fun j => ([4, 1, 2, 3] : List ℚ).getD j 0

/-- Column indices of the 2×2 example. -/
def cols2x2 : ℕ → ℕ := fun j => [0, 1, 0, 1].getD j 0

/-- Row pointers of the 2×2 example. -/
def rows2x2 : ℕ → ℕ := fun r => [0, 2, 4].getD r 0

/-- The vector `[1,1]`. -/
def x11 : ℕ → ℚ := fun i => ([1, 1] : List ℚ).getD i 0

/-- The vector `[10,10]`. -/
def rhs1010 : ℕ → ℚ := fun i => ([10, 10] : List ℚ).getD i 0

/-- Values of a single 3×3 identity block (row-major). -/
def vals3id : ℕ → ℚ := fun j => ([1, 0, 0, 0, 1, 0, 0, 0, 1] : List ℚ).getD j 0

/-- Column indices of a single-block matrix. -/
def cols1b : ℕ → ℕ := fun _ => 0

/-- Row pointers `[0,1]` of a single-block matrix. -/
def rows01 : ℕ → ℕ := fun r => [0, 1].getD r 0

/-- The vector `[1,2,3]`. -/
def x123 : ℕ → ℚ := fun i => ([1, 2, 3] : List ℚ).getD i 0

/-- Values of a single 2×2 block `[[1,2],[3,4]]` (row-major). -/
def valsB2 : ℕ → ℚ := fun j => ([1, 2, 3, 4] : List ℚ).getD j 0

/-- The vector `[1,2,3,4]`, read as two block rows of block size 2. -/
def fine1234 : ℕ → ℚ := fun i => ([1, 2, 3, 4] : List ℚ).getD i 0

/-- The coarse vector `[5,7]`. -/
def coarse57 : ℕ → ℚ := fun r => ([5, 7] : List ℚ).getD r 0

/-! ## Lemmas -/

/-- The grid size of every host wrapper covers the problem size. -/
theorem le_ceilDivision_mul (N : ℕ) : N ≤ ceilDivision N 64 * 64 := by
  unfold ceilDivision
  omega

/-- The same coverage bound for a 32-sized launch grid. -/
theorem le_ceilDivision_mul32 (N : ℕ) : N ≤ ceilDivision N 32 * 32 := by
  unfold ceilDivision
  omega

/-- A for-loop past its end contributes nothing, for any fuel. -/
theorem forSum_stop (g : ℕ → ℚ) (stop step fuel pos : ℕ) (h : stop ≤ pos) :
    forSum g stop step fuel pos = 0 := by
  cases fuel <;> simp [forSum, Nat.not_lt.mpr h]

/-- Any two sufficient fuels give the same for-loop sum. -/
theorem forSum_congr_fuel (g : ℕ → ℚ) (stop step : ℕ) (hs : 0 < step) :
    ∀ fuel fuel' pos, stop - pos ≤ fuel → stop - pos ≤ fuel' →
      forSum g stop step fuel pos = forSum g stop step fuel' pos := by
  intro fuel
  induction fuel with
  | zero =>
    intro fuel' pos h h'
    have hst : stop ≤ pos := by omega
    rw [forSum_stop g stop step 0 pos hst, forSum_stop g stop step fuel' pos hst]
  | succ n ih =>
    intro fuel' pos h h'
    by_cases hp : pos < stop
    · cases fuel' with
      | zero => omega
      | succ m =>
        simp only [forSum, if_pos hp]
        rw [ih m (pos + step) (by omega) (by omega)]
    · rw [forSum_stop g stop step (n + 1) pos (by omega),
        forSum_stop g stop step fuel' pos (by omega)]

/-- Extending the loop bound by one adds `g stop` exactly when `stop` is on
the strided chain starting at `pos`. -/
theorem forSum_succ_stop (g : ℕ → ℚ) (B : ℕ) (hB : 0 < B) (stop : ℕ) :
    ∀ fuel pos, stop + 1 - pos ≤ fuel →
      forSum g (stop + 1) B fuel pos =
        forSum g stop B fuel pos + (if pos ≤ stop ∧ B ∣ stop - pos then g stop else 0) := by
  intro fuel
  induction fuel with
  | zero =>
    intro pos h
    have h1 : stop + 1 ≤ pos := by omega
    rw [forSum_stop g (stop + 1) B 0 pos (by omega), forSum_stop g stop B 0 pos (by omega)]
    have hneg : ¬(pos ≤ stop ∧ B ∣ stop - pos) := by
      rintro ⟨h2, _⟩; omega
    simp [hneg]
  | succ n ih =>
    intro pos h
    rcases lt_trichotomy pos stop with hlt | heq | hgt
    · have hp1 : pos < stop + 1 := by omega
      simp only [forSum, if_pos hp1, if_pos hlt]
      rw [ih (pos + B) (by omega)]
      by_cases hd : B ∣ stop - pos
      · have hBle : B ≤ stop - pos := Nat.le_of_dvd (by omega) hd
        have hd2 : B ∣ stop - (pos + B) := by
          have h3 := Nat.dvd_sub' hd (dvd_refl B)
          rwa [show stop - pos - B = stop - (pos + B) by omega] at h3
        rw [if_pos ⟨by omega, hd2⟩, if_pos ⟨by omega, hd⟩]
        ring
      · have hneg : ¬(pos + B ≤ stop ∧ B ∣ stop - (pos + B)) := by
          rintro ⟨c1, hd2⟩
          apply hd
          have h3 : B ∣ stop - (pos + B) + B := Dvd.dvd.add hd2 (dvd_refl B)
          rwa [show stop - (pos + B) + B = stop - pos by omega] at h3
        rw [if_neg hneg, if_neg (by rintro ⟨_, hc⟩; exact hd hc)]
        ring
    · subst heq
      simp only [forSum, if_pos (Nat.lt_succ_self pos), Nat.lt_irrefl, if_false]
      rw [forSum_stop g (pos + 1) B n (pos + B) (by omega)]
      have hpos : pos ≤ pos ∧ B ∣ pos - pos := ⟨le_refl pos, by simp⟩
      rw [if_pos hpos]
      ring
    · rw [forSum_stop g (stop + 1) B (n + 1) pos (by omega),
        forSum_stop g stop B (n + 1) pos (by omega),
        if_neg (by rintro ⟨hc, _⟩; omega)]
      ring

/-- Exactly one residue in `[0, B)` lies on the chain reaching `d`. -/
theorem sum_dvd_indicator (B : ℕ) (hB : 0 < B) (d : ℕ) (a : ℚ) :
    ∑ t ∈ Finset.range B, (if t ≤ d ∧ B ∣ d - t then a else 0) = a := by
  have key : ∀ t ∈ Finset.range B,
      (if t ≤ d ∧ B ∣ d - t then a else 0) = (if t = d % B then a else 0) := by
    intro t ht
    rw [Finset.mem_range] at ht
    by_cases h : t ≤ d ∧ B ∣ d - t
    · obtain ⟨h1, q, hq⟩ := h
      have hm : d % B = t := by
        rw [show d = t + B * q by omega, Nat.add_mul_mod_self_left, Nat.mod_eq_of_lt ht]
      rw [if_pos ⟨h1, q, hq⟩, if_pos hm.symm]
    · have hne : ¬t = d % B := by
        intro he
        apply h
        refine ⟨he ▸ Nat.mod_le d B, d / B, ?_⟩
        have h3 := Nat.div_add_mod d B
        omega
      rw [if_neg h, if_neg hne]
  rw [Finset.sum_congr rfl key, Finset.sum_ite_eq' (Finset.range B) (d % B) fun _ => a,
    if_pos (Finset.mem_range.mpr (Nat.mod_lt d hB))]

/-- The `B` interleaved strided chains starting at `start, …, start+B-1`
partition the index interval `[start, start+L)`. -/
theorem forSum_partition_aux (g : ℕ → ℚ) (B : ℕ) (hB : 0 < B) :
    ∀ L F start, L ≤ F →
      ∑ t ∈ Finset.range B, forSum g (start + L) B F (start + t) =
        ∑ j ∈ Finset.Ico start (start + L), g j := by
  intro L
  induction L with
  | zero =>
    intro F start _
    rw [Finset.sum_congr rfl fun t _ =>
      forSum_stop g (start + 0) B F (start + t) (by omega)]
    simp
  | succ L ih =>
    intro F start h
    rw [show start + (L + 1) = start + L + 1 from rfl,
      Finset.sum_congr rfl fun t _ =>
        forSum_succ_stop g B hB (start + L) F (start + t) (by omega),
      Finset.sum_add_distrib, ih F start (by omega)]
    have conv : ∀ t ∈ Finset.range B,
        (if start + t ≤ start + L ∧ B ∣ start + L - (start + t) then g (start + L) else 0)
          = (if t ≤ L ∧ B ∣ L - t then g (start + L) else 0) := by
      intro t _
      rw [show start + L - (start + t) = L - t by omega]
      have hiff : (start + t ≤ start + L ∧ B ∣ L - t) ↔ (t ≤ L ∧ B ∣ L - t) := by
        constructor <;> rintro ⟨h1, h2⟩ <;> exact ⟨by omega, h2⟩
      rw [if_congr hiff rfl rfl]
    rw [Finset.sum_congr rfl conv, sum_dvd_indicator B hB L (g (start + L)),
      Finset.sum_Ico_succ_top (by omega : start ≤ start + L)]

/-- Strided-chain partition of a CSR row, with the fuel the kernels use. -/
theorem forSum_partition (g : ℕ → ℚ) (B start stop : ℕ) (hB : 0 < B) :
    ∑ t ∈ Finset.range B, forSum g stop B (stop - start) (start + t) =
      ∑ j ∈ Finset.Ico start stop, g j := by
  rcases le_or_lt start stop with hle | hgt
  · have h := forSum_partition_aux g B hB (stop - start) (stop - start) start (le_refl _)
    rwa [show start + (stop - start) = stop by omega] at h
  · rw [Finset.sum_congr rfl fun t _ =>
      forSum_stop g stop B (stop - start) (start + t) (by omega)]
    rw [Finset.Ico_eq_empty (by omega)]
    simp

/-- The halving tree reduction starting at offset `2^k` leaves in slot `0`
the sum of the `2^(k+1)` input slots. -/
theorem hloopF_pow : ∀ (k fuel : ℕ) (f : ℕ → ℚ), k + 1 ≤ fuel →
    hloopF fuel (2 ^ k) f 0 = ∑ i ∈ Finset.range (2 ^ (k + 1)), f i := by
  intro k
  induction k with
  | zero =>
    intro fuel f h
    cases fuel with
    | zero => omega
    | succ n =>
      simp only [pow_zero, hloopF, if_pos Nat.one_pos]
      have h0 : hloopF n (1 / 2) (hstep 1 f) = hstep 1 f := by
        cases n <;> simp [hloopF]
      rw [h0]
      simp [hstep, Finset.sum_range_succ]
  | succ k ih =>
    intro fuel f h
    cases fuel with
    | zero => omega
    | succ n =>
      have h2 : (0 : ℕ) < 2 ^ (k + 1) := pow_pos (by norm_num) _
      simp only [hloopF, if_pos h2]
      rw [show 2 ^ (k + 1) / 2 = 2 ^ k by
        rw [pow_succ]; exact Nat.mul_div_cancel _ (by norm_num)]
      rw [ih n (hstep (2 ^ (k + 1)) f) (by omega)]
      have hcong : ∑ i ∈ Finset.range (2 ^ (k + 1)), hstep (2 ^ (k + 1)) f i
          = ∑ i ∈ Finset.range (2 ^ (k + 1)), (f i + f (i + 2 ^ (k + 1))) :=
        Finset.sum_congr rfl fun i hi => by
          rw [Finset.mem_range] at hi
          simp [hstep, hi]
      rw [hcong, Finset.sum_add_distrib, show 2 ^ (k + 1 + 1) = 2 ^ (k + 1) + 2 ^ (k + 1) by ring,
        Finset.sum_range_add]
      congr 1
      exact Finset.sum_congr rfl fun i _ => by rw [Nat.add_comm]

/-- Pairing of a doubled range sum. -/
theorem sum_range_pair (n : ℕ) (a : ℕ → ℚ) :
    ∑ m ∈ Finset.range n, (a (2 * m) + a (2 * m + 1)) = ∑ m ∈ Finset.range (2 * n), a m := by
  induction n with
  | zero => simp
  | succ n ih =>
    rw [Finset.sum_range_succ, ih, show 2 * (n + 1) = 2 * n + 1 + 1 by ring,
      Finset.sum_range_succ, Finset.sum_range_succ]
    ring

/-- The guarded doubling reduction of `residual_blocked_k`: starting at offset
`s` and doubling while `offset ≤ target` (which takes exactly `K` iterations),
slot `L` ends with the sum of the in-range slots `L, L+s, L+2s, …` up to span
`2^K`. -/
theorem bloopF_eval (w target : ℕ) :
    ∀ (K s fuel : ℕ) (f : ℕ → ℚ) (L : ℕ), 0 < s → L < w → K ≤ fuel →
      (∀ j, j < K → s * 2 ^ j ≤ target) → target < s * 2 ^ K →
      bloopF w target fuel s f L =
        ∑ m ∈ Finset.range (2 ^ K), (if L + m * s < w then f (L + m * s) else 0) := by
  intro K
  induction K with
  | zero =>
    intro s fuel f L hs hL _ _ hhi
    have hst : ¬s ≤ target := by
      have h1 : target < s := by simpa using hhi
      omega
    have hb : bloopF w target fuel s f = f := by
      cases fuel <;> simp [bloopF, hst]
    rw [hb]
    simp [hL]
  | succ K ih =>
    intro s fuel f L hs hL hfuel hlo hhi
    cases fuel with
    | zero => omega
    | succ n =>
      have hguard : s ≤ target := by
        have h1 := hlo 0 (by omega)
        simpa using h1
      simp only [bloopF, if_pos hguard]
      rw [ih (2 * s) n (bstep w s f) L (by omega) hL (by omega)
        (by
          intro j hj
          have h3 := hlo (j + 1) (by omega)
          have h4 : 2 * s * 2 ^ j = s * 2 ^ (j + 1) := by ring
          omega)
        (by
          have h4 : 2 * s * 2 ^ K = s * 2 ^ (K + 1) := by ring
          omega)]
      rw [show (2 : ℕ) ^ (K + 1) = 2 * 2 ^ K by ring,
        ← sum_range_pair (2 ^ K) fun m => if L + m * s < w then f (L + m * s) else 0]
      refine Finset.sum_congr rfl fun m _ => ?_
      rw [show L + m * (2 * s) = L + 2 * m * s by ring]
      simp only [bstep]
      have e2 : L + 2 * m * s + s = L + (2 * m + 1) * s := by ring
      by_cases c1 : L + 2 * m * s < w
      · by_cases c2 : L + (2 * m + 1) * s < w
        · have c2a : L + 2 * m * s + s < w := by rw [e2]; exact c2
          rw [if_pos c1, if_pos c2a, if_pos c1, if_pos c2, e2]
        · have c2a : ¬L + 2 * m * s + s < w := by rw [e2]; exact c2
          rw [if_pos c1, if_neg c2a, if_pos c1, if_neg c2]
          ring
      · have c2 : ¬L + (2 * m + 1) * s < w := by
          intro hc
          apply c1
          have h5 : L + 2 * m * s + s < w := by rw [e2]; exact hc
          omega
        rw [if_neg c1, if_neg c1, if_neg c2]
        ring

/-- Truncating a guarded range sum at the guard bound. -/
theorem sum_if_range (F : ℕ → ℚ) (n M : ℕ) (h : M ≤ n) :
    ∑ m ∈ Finset.range n, (if m < M then F m else 0) = ∑ m ∈ Finset.range M, F m := by
  rw [← Finset.sum_filter]
  congr 1
  ext m
  simp only [Finset.mem_filter, Finset.mem_range]
  omega

/-- Splitting a range of size `a*b` into `a` chunks of size `b`. -/
theorem sum_range_mul (a b : ℕ) (H : ℕ → ℚ) :
    ∑ m ∈ Finset.range (a * b), H m =
      ∑ k ∈ Finset.range a, ∑ c ∈ Finset.range b, H (b * k + c) := by
  induction a with
  | zero => simp
  | succ n ih =>
    rw [show (n + 1) * b = n * b + b by ring, Finset.sum_range_add, ih,
      Finset.sum_range_succ]
    congr 1
    exact Finset.sum_congr rfl fun c _ => by rw [show n * b + c = b * n + c by ring]

/-! ### Executing a launch of a pure-write kernel (`rowSetDiv` bodies):
`spmv_k`, `residual_k`, `full_to_pressure_restriction_k`, `residual_blocked_k`.
These never read the array they write, so every write to a position deposits
the same value `v i`; repeated claims of a row are idempotent. -/

/-- A work loop with an exhausted-or-not budget past the row count is inert. -/
theorem strideLoop_stop (N stride : ℕ) (upd : ℕ → (ℕ → ℚ) → (ℕ → ℚ)) (fuel pos : ℕ)
    (out : ℕ → ℚ) (h : ¬pos < N) : strideLoop N stride upd fuel pos out = out := by
  cases fuel <;> simp [strideLoop, h]

/-- A kernel with zero rows never touches the output. -/
theorem grid_nil (stride : ℕ) (upd : ℕ → (ℕ → ℚ) → (ℕ → ℚ)) (fuel : ℕ) :
    ∀ T out, grid 0 stride upd fuel T out = out := by
  intro T
  induction T with
  | zero => intro out; rfl
  | succ T ih =>
    intro out
    simp only [grid]
    rw [strideLoop_stop 0 stride upd fuel T _ (by omega), ih out]

/-- A pure-write loop leaves a position alone or deposits its value. -/
theorem strideLoop_rowSet_or (N stride bs : ℕ) (v : ℕ → ℚ) :
    ∀ fuel pos out i, strideLoop N stride (rowSetDiv bs v) fuel pos out i = out i ∨
      strideLoop N stride (rowSetDiv bs v) fuel pos out i = v i := by
  intro fuel
  induction fuel with
  | zero => intro pos out i; left; rfl
  | succ n ih =>
    intro pos out i
    by_cases hp : pos < N
    · simp only [strideLoop, if_pos hp]
      rcases ih (pos + stride) (rowSetDiv bs v pos out) i with h | h
      · rw [h]
        unfold rowSetDiv
        by_cases hc : i / bs = pos
        · right; rw [if_pos hc]
        · left; rw [if_neg hc]
      · right; exact h
    · rw [strideLoop_stop N stride (rowSetDiv bs v) (n + 1) pos out hp]; left; rfl

/-- Once a position holds its value, the loop keeps it. -/
theorem strideLoop_rowSet_stable (N stride bs : ℕ) (v : ℕ → ℚ) (fuel pos : ℕ)
    (out : ℕ → ℚ) (i : ℕ) (h : out i = v i) :
    strideLoop N stride (rowSetDiv bs v) fuel pos out i = v i := by
  rcases strideLoop_rowSet_or N stride bs v fuel pos out i with h1 | h1
  · rw [h1, h]
  · exact h1

/-- Positions outside the row range are never written. -/
theorem strideLoop_rowSet_miss (N stride bs : ℕ) (v : ℕ → ℚ) (i : ℕ)
    (hi : ¬i / bs < N) : ∀ fuel pos out,
      strideLoop N stride (rowSetDiv bs v) fuel pos out i = out i := by
  intro fuel
  induction fuel with
  | zero => intro pos out; rfl
  | succ n ih =>
    intro pos out
    by_cases hp : pos < N
    · simp only [strideLoop, if_pos hp]
      rw [ih (pos + stride) _]
      unfold rowSetDiv
      rw [if_neg fun hc => hi (by rw [hc]; exact hp)]
    · simp only [strideLoop, if_neg hp]

/-- The work item starting at a position's own row writes it immediately. -/
theorem strideLoop_rowSet_hit (N stride bs : ℕ) (v : ℕ → ℚ) (fuel : ℕ) (out : ℕ → ℚ)
    (i : ℕ) (hi : i / bs < N) :
    strideLoop N stride (rowSetDiv bs v) (fuel + 1) (i / bs) out i = v i := by
  simp only [strideLoop, if_pos hi]
  refine strideLoop_rowSet_stable N stride bs v fuel (i / bs + stride) _ i ?_
  unfold rowSetDiv
  rw [if_pos rfl]

/-- Launch-level miss: rows past `N` keep their initial contents. -/
theorem grid_rowSet_miss (N stride bs : ℕ) (v : ℕ → ℚ) (fuel : ℕ) (i : ℕ)
    (hi : ¬i / bs < N) : ∀ T out,
      grid N stride (rowSetDiv bs v) fuel T out i = out i := by
  intro T
  induction T with
  | zero => intro out; rfl
  | succ T ih =>
    intro out
    simp only [grid]
    rw [strideLoop_rowSet_miss N stride bs v i hi fuel T _, ih out]

/-- Launch-level hit: as long as there are at least as many cooperating units
as rows, every row in range ends up holding its value. -/
theorem grid_rowSet_hit (N stride bs : ℕ) (v : ℕ → ℚ) (fuel : ℕ) (i : ℕ)
    (hi : i / bs < N) : ∀ T out, i / bs < T →
      grid N stride (rowSetDiv bs v) (fuel + 1) T out i = v i := by
  intro T
  induction T with
  | zero => intro out h; exact absurd h (Nat.not_lt_zero _)
  | succ T ih =>
    intro out hT
    simp only [grid]
    by_cases hc : i / bs = T
    · rw [← hc]
      exact strideLoop_rowSet_hit N stride bs v fuel _ i hi
    · exact strideLoop_rowSet_stable N stride bs v (fuel + 1) T _ i (ih out (by omega))

/-- Closed form of a launched pure-write kernel. -/
theorem grid_rowSet_closed (N stride bs T : ℕ) (v : ℕ → ℚ) (fuel : ℕ) (out : ℕ → ℚ)
    (hT : N ≤ T) (i : ℕ) :
    grid N stride (rowSetDiv bs v) (fuel + 1) T out i = if i / bs < N then v i else out i := by
  by_cases hi : i / bs < N
  · rw [if_pos hi, grid_rowSet_hit N stride bs v fuel i hi T out (by omega)]
  · rw [if_neg hi, grid_rowSet_miss N stride bs v (fuel + 1) i hi T out]

/-! ### Executing a launch of an accumulate kernel (`pointUpd` bodies):
`vmul_k`, `add_coarse_pressure_correction_k`, `prolongate_vector_k`.
Under the host launch configurations `stride = gridDim ≥ N`, so every claimed
index is claimed by exactly one work item exactly once. -/

/-- With `stride ≥ N` a work loop performs at most its first iteration. -/
theorem strideLoop_once (N stride : ℕ) (upd : ℕ → (ℕ → ℚ) → (ℕ → ℚ)) (fuel pos : ℕ)
    (out : ℕ → ℚ) (hs : N ≤ stride) :
    strideLoop N stride upd (fuel + 1) pos out = if pos < N then upd pos out else out := by
  by_cases hp : pos < N
  · simp only [strideLoop, if_pos hp]
    rw [strideLoop_stop N stride upd fuel (pos + stride) _ (by omega)]
  · simp only [strideLoop, if_neg hp]

/-- Launch-level miss for an accumulate kernel: a position targeted by no
in-range work item is untouched. -/
theorem grid_pointUpd_miss (N stride : ℕ) (t : ℕ → ℕ) (d : ℕ → ℚ) (fuel : ℕ) (i : ℕ)
    (hs : N ≤ stride) : ∀ T out, (∀ r, r < N → r < T → t r ≠ i) →
      grid N stride (pointUpd t d) (fuel + 1) T out i = out i := by
  intro T
  induction T with
  | zero => intro out _; rfl
  | succ T ih =>
    intro out hT
    simp only [grid]
    rw [strideLoop_once N stride _ fuel T _ hs]
    by_cases hp : T < N
    · rw [if_pos hp]
      unfold pointUpd
      rw [if_neg fun hc => hT T hp (by omega) hc.symm]
      exact ih out fun r h1 h2 => hT r h1 (by omega)
    · rw [if_neg hp]
      exact ih out fun r h1 h2 => hT r h1 (by omega)

/-- Launch-level hit for an accumulate kernel: with an injective target map,
position `t r` receives exactly one increment `d r`. -/
theorem grid_pointUpd_hit (N stride : ℕ) (t : ℕ → ℕ) (d : ℕ → ℚ) (fuel : ℕ)
    (hs : N ≤ stride) (hinj : ∀ a b, a < N → b < N → t a = t b → a = b) (r : ℕ)
    (hr : r < N) : ∀ T out, r < T →
      grid N stride (pointUpd t d) (fuel + 1) T out (t r) = out (t r) + d r := by
  intro T
  induction T with
  | zero => intro out h; exact absurd h (Nat.not_lt_zero _)
  | succ T ih =>
    intro out hT
    simp only [grid]
    rw [strideLoop_once N stride _ fuel T _ hs]
    by_cases hc : r = T
    · rw [← hc, if_pos hr]
      have hmiss := grid_pointUpd_miss N stride t d fuel (t r) hs r out
        fun a h1 h2 hc2 => by have := hinj a r h1 hr hc2; omega
      show (if t r = t r then grid N stride (pointUpd t d) (fuel + 1) r out (t r) + d r
        else grid N stride (pointUpd t d) (fuel + 1) r out (t r)) = out (t r) + d r
      rw [if_pos rfl, hmiss]
    · by_cases hp : T < N
      · rw [if_pos hp]
        unfold pointUpd
        rw [if_neg fun hc2 : t r = t T => hc (hinj r T hr hp hc2)]
        exact ih out (by omega)
      · rw [if_neg hp]
        exact ih out (by omega)

/-! ### The kernels' bodies in canonical shape -/

/-- `vmul_k`'s body is a point accumulate at the claimed index itself. -/
theorem vmul_body_eq (alpha : ℚ) (in1 in2 : ℕ → ℚ) :
    vmul_body alpha in1 in2 = pointUpd (fun p => p) fun p => alpha * in1 p * in2 p := rfl

/-- `add_coarse_pressure_correction_k`'s body accumulates at `tbr*3 + p`. -/
theorem add_coarse_body_eq (coarse_x : ℕ → ℚ) (p : ℕ) :
    add_coarse_pressure_correction_body coarse_x p =
      pointUpd (fun r => r * 3 + p) coarse_x := rfl

/-- `prolongate_vector_k`'s body accumulates `in[cols[row]]` at the row. -/
theorem prolongate_body_eq (inV : ℕ → ℚ) (cols : ℕ → ℕ) :
    prolongate_vector_body inV cols = pointUpd (fun r => r) fun r => inV (cols r) := rfl

/-- `full_to_pressure_restriction_k`'s body is a pure write per block row. -/
theorem restrict_body_eq (fine w : ℕ → ℚ) :
    full_to_pressure_restriction_body fine w =
      rowSetDiv 1 fun i => ∑ k ∈ Finset.range 3, fine (3 * i + k) * w (3 * i + k) := by
  funext tbr out i
  unfold full_to_pressure_restriction_body rowSetDiv
  rw [Nat.div_one]
  by_cases h : i = tbr
  · rw [if_pos h, if_pos h, h]
  · rw [if_neg h, if_neg h]

/-- `spmv_k`'s body is a pure write per row. -/
theorem spmv_body_eq (vals : ℕ → ℚ) (cols rows : ℕ → ℕ) (x : ℕ → ℚ) (bsize : ℕ) :
    spmv_body vals cols rows x bsize =
      rowSetDiv 1 fun i => scalar_row vals cols rows x bsize i := by
  funext row out i
  unfold spmv_body rowSetDiv
  rw [Nat.div_one]
  by_cases h : i = row
  · rw [if_pos h, if_pos h, h]
  · rw [if_neg h, if_neg h]

/-- `residual_k`'s body is a pure write per row. -/
theorem residual_body_eq (vals : ℕ → ℚ) (cols rows : ℕ → ℕ) (x rhs : ℕ → ℚ) (bsize : ℕ) :
    residual_body vals cols rows x rhs bsize =
      rowSetDiv 1 fun i => rhs i - scalar_row vals cols rows x bsize i := by
  funext row out i
  unfold residual_body rowSetDiv
  rw [Nat.div_one]
  by_cases h : i = row
  · rw [if_pos h, if_pos h, h]
  · rw [if_neg h, if_neg h]

/-- `residual_blocked_k`'s body is a pure write per block row. -/
theorem blocked_body_eq (w bs : ℕ) (vals : ℕ → ℚ) (cols rows : ℕ → ℕ) (x rhs : ℕ → ℚ) :
    residual_blocked_body w bs vals cols rows x rhs =
      rowSetDiv bs fun i =>
        rhs i - residual_blocked_tmp w bs vals cols rows x (i / bs) (i % bs) := by
  funext tbr out i
  unfold residual_blocked_body rowSetDiv
  by_cases h : i / bs = tbr
  · rw [if_pos h, if_pos h]
    exact congrArg
      (fun z => rhs i - residual_blocked_tmp w bs vals cols rows x z (i % bs)) h.symm
  · rw [if_neg h, if_neg h]

/-! ### Closed forms of the launched kernels -/

/-- `vmul_k` with enough groups: each index of `[0, N)` is incremented once. -/
theorem vmul_k_closed (gridDim blockDim : ℕ) (alpha : ℚ) (in1 in2 out : ℕ → ℚ) (N : ℕ)
    (h1 : N ≤ gridDim) (h2 : N ≤ gridDim * blockDim) (i : ℕ) :
    vmul_k gridDim blockDim alpha in1 in2 out N i =
      if i < N then out i + alpha * in1 i * in2 i else out i := by
  unfold vmul_k
  rw [vmul_body_eq]
  cases N with
  | zero =>
    rw [if_neg (by omega), grid_nil gridDim (pointUpd (fun p => p) _) 0 (gridDim * blockDim) out]
  | succ n =>
    by_cases hi : i < n + 1
    · rw [if_pos hi]
      exact grid_pointUpd_hit (n + 1) gridDim (fun p => p) (fun p => alpha * in1 p * in2 p) n
        h1 (fun a b _ _ h => h) i hi (gridDim * blockDim) out (by omega)
    · rw [if_neg hi]
      exact grid_pointUpd_miss (n + 1) gridDim _ _ n i h1 (gridDim * blockDim) out
        fun r hr _ hc => hi (hc ▸ hr)

/-- `prolongate_vector_k` with enough groups. -/
theorem prolongate_vector_k_closed (gridDim blockDim : ℕ) (inV out : ℕ → ℚ) (cols : ℕ → ℕ)
    (N : ℕ) (h1 : N ≤ gridDim) (h2 : N ≤ gridDim * blockDim) (i : ℕ) :
    prolongate_vector_k gridDim blockDim inV out cols N i =
      if i < N then out i + inV (cols i) else out i := by
  unfold prolongate_vector_k
  rw [prolongate_body_eq]
  cases N with
  | zero =>
    rw [if_neg (by omega), grid_nil gridDim (pointUpd (fun r => r) _) 0 (gridDim * blockDim) out]
  | succ n =>
    by_cases hi : i < n + 1
    · rw [if_pos hi]
      exact grid_pointUpd_hit (n + 1) gridDim (fun r => r) (fun r => inV (cols r)) n
        h1 (fun a b _ _ h => h) i hi (gridDim * blockDim) out (by omega)
    · rw [if_neg hi]
      exact grid_pointUpd_miss (n + 1) gridDim _ _ n i h1 (gridDim * blockDim) out
        fun r hr _ hc => hi (hc ▸ hr)

/-- `add_coarse_pressure_correction_k` with enough groups: the pressure slot
of every block row of `[0, Nb)` is incremented by its coarse value. -/
theorem add_coarse_k_closed (gridDim blockDim : ℕ) (coarse fine : ℕ → ℚ) (p Nb : ℕ)
    (hp : p < 3) (h1 : Nb ≤ gridDim) (h2 : Nb ≤ gridDim * blockDim) (i : ℕ) :
    add_coarse_pressure_correction_k gridDim blockDim coarse fine p Nb i =
      if i % 3 = p ∧ i / 3 < Nb then fine i + coarse (i / 3) else fine i := by
  unfold add_coarse_pressure_correction_k
  rw [add_coarse_body_eq]
  cases Nb with
  | zero =>
    rw [if_neg (by rintro ⟨_, h⟩; omega),
      grid_nil gridDim (pointUpd (fun r => r * 3 + p) coarse) 0 (gridDim * blockDim) fine]
  | succ n =>
    by_cases hi : i % 3 = p ∧ i / 3 < n + 1
    · obtain ⟨hm, hd⟩ := hi
      have hti : i / 3 * 3 + p = i := by omega
      have h3 := grid_pointUpd_hit (n + 1) gridDim (fun r => r * 3 + p) coarse n h1
        (fun a b _ _ h => by have h4 : a * 3 + p = b * 3 + p := h; omega) (i / 3) hd
        (gridDim * blockDim) fine (by omega)
      rw [if_pos ⟨hm, hd⟩]
      rw [show ((fun r => r * 3 + p) (i / 3)) = i from hti] at h3
      exact h3
    · rw [if_neg hi]
      refine grid_pointUpd_miss (n + 1) gridDim _ _ n i h1 (gridDim * blockDim) fine ?_
      intro r hr _ hc
      have hc2 : r * 3 + p = i := hc
      exact hi ⟨by omega, by omega⟩

/-- `full_to_pressure_restriction_k` with enough threads. -/
theorem restrict_k_closed (gridDim blockDim : ℕ) (fine w coarse : ℕ → ℚ) (Nb : ℕ)
    (hT : Nb ≤ gridDim * blockDim) (i : ℕ) :
    full_to_pressure_restriction_k gridDim blockDim fine w coarse Nb i =
      if i < Nb then ∑ k ∈ Finset.range 3, fine (3 * i + k) * w (3 * i + k) else coarse i := by
  unfold full_to_pressure_restriction_k
  rw [restrict_body_eq]
  cases Nb with
  | zero =>
    rw [if_neg (by omega), grid_nil gridDim (rowSetDiv 1 _) 0 (gridDim * blockDim) coarse]
  | succ n =>
    have h := grid_rowSet_closed (n + 1) gridDim 1 (gridDim * blockDim)
      (fun j => ∑ k ∈ Finset.range 3, fine (3 * j + k) * w (3 * j + k)) n coarse hT i
    rw [Nat.div_one] at h
    exact h

/-- `spmv_k` with enough workgroups. -/
theorem spmv_k_closed (gridDim blockDim : ℕ) (vals : ℕ → ℚ) (cols rows : ℕ → ℕ) (N : ℕ)
    (x out : ℕ → ℚ) (hT : N ≤ gridDim) (i : ℕ) :
    spmv_k gridDim blockDim vals cols rows N x out i =
      if i < N then scalar_row vals cols rows x blockDim i else out i := by
  unfold spmv_k
  rw [spmv_body_eq]
  cases N with
  | zero =>
    rw [if_neg (by omega), grid_nil gridDim (rowSetDiv 1 _) 0 gridDim out]
  | succ n =>
    have h := grid_rowSet_closed (n + 1) gridDim 1 gridDim
      (fun j => scalar_row vals cols rows x blockDim j) n out hT i
    rw [Nat.div_one] at h
    exact h

/-- `residual_k` with enough workgroups. -/
theorem residual_k_closed (gridDim blockDim : ℕ) (vals : ℕ → ℚ) (cols rows : ℕ → ℕ) (N : ℕ)
    (x rhs out : ℕ → ℚ) (hT : N ≤ gridDim) (i : ℕ) :
    residual_k gridDim blockDim vals cols rows N x rhs out i =
      if i < N then rhs i - scalar_row vals cols rows x blockDim i else out i := by
  unfold residual_k
  rw [residual_body_eq]
  cases N with
  | zero =>
    rw [if_neg (by omega), grid_nil gridDim (rowSetDiv 1 _) 0 gridDim out]
  | succ n =>
    have h := grid_rowSet_closed (n + 1) gridDim 1 gridDim
      (fun j => rhs j - scalar_row vals cols rows x blockDim j) n out hT i
    rw [Nat.div_one] at h
    exact h

/-- `residual_blocked_k` with enough warps, for any block size: every scalar
row of a block row of `[0, Nb)` receives `rhs` minus its warp's reduced
scratch slot. -/
theorem residual_blocked_k_closed (w gridDim blockDim : ℕ) (vals : ℕ → ℚ)
    (cols rows : ℕ → ℕ) (Nb : ℕ) (x rhs out : ℕ → ℚ) (bs : ℕ)
    (hT : Nb ≤ gridDim * blockDim / w) (i : ℕ) :
    residual_blocked_k w gridDim blockDim vals cols rows Nb x rhs out bs i =
      if i / bs < Nb then
        rhs i - residual_blocked_tmp w bs vals cols rows x (i / bs) (i % bs)
      else out i := by
  unfold residual_blocked_k
  rw [blocked_body_eq]
  cases Nb with
  | zero =>
    rw [if_neg (Nat.not_lt_zero _),
      grid_nil (gridDim / w) (rowSetDiv bs _) 0 (gridDim * blockDim / w) out]
  | succ n =>
    exact grid_rowSet_closed (n + 1) (gridDim / w) bs (gridDim * blockDim / w)
      (fun j => rhs j - residual_blocked_tmp w bs vals cols rows x (j / bs) (j % bs)) n
      out hT i

/-! ### The scalar row computation equals the CSR row sum -/

/-- Each workgroup of 64 threads computes exactly the CSR row sum: the 64
strided partial sums reduce, via the halving tree, to the full row sum. -/
theorem scalar_row_eq (vals : ℕ → ℚ) (cols rows : ℕ → ℕ) (x : ℕ → ℚ) (row : ℕ) :
    scalar_row vals cols rows x 64 row =
      ∑ j ∈ Finset.Ico (rows row) (rows (row + 1)), vals j * x (cols j) := by
  unfold scalar_row
  rw [show (64 : ℕ) / 2 = 2 ^ 5 by norm_num, hloopF_pow 5 64 _ (by norm_num),
    show (2 : ℕ) ^ (5 + 1) = 64 by norm_num]
  exact forSum_partition (fun j => vals j * x (cols j)) 64 (rows row) (rows (row + 1))
    (by norm_num)

/-! ### Closed forms of the host wrappers -/

/-- `HipKernels::vmul` increments exactly the indices of `[0, N)`. -/
theorem HipKernels_vmul_closed (alpha : ℚ) (in1 in2 out : ℕ → ℚ) (N i : ℕ) :
    HipKernels_vmul alpha in1 in2 out N i =
      if i < N then out i + alpha * in1 i * in2 i else out i := by
  unfold HipKernels_vmul
  exact vmul_k_closed (ceilDivision N 64 * 64) 64 alpha in1 in2 out N
    (le_ceilDivision_mul N) (by have := le_ceilDivision_mul N; nlinarith) i

/-- `HipKernels::prolongate_vector` adds `in[cols[i]]` at exactly `[0, N)`. -/
theorem HipKernels_prolongate_vector_closed (inV out : ℕ → ℚ) (cols : ℕ → ℕ) (N i : ℕ) :
    HipKernels_prolongate_vector inV out cols N i =
      if i < N then out i + inV (cols i) else out i := by
  unfold HipKernels_prolongate_vector
  exact prolongate_vector_k_closed (ceilDivision N 64 * 64) 64 inV out cols N
    (le_ceilDivision_mul N) (by have := le_ceilDivision_mul N; nlinarith) i

/-- `HipKernels::add_coarse_pressure_correction` increments exactly the
pressure slots `3*row + p`, `row < Nb`. -/
theorem HipKernels_add_coarse_closed (coarse fine : ℕ → ℚ) (p Nb : ℕ) (hp : p < 3) (i : ℕ) :
    HipKernels_add_coarse_pressure_correction coarse fine p Nb i =
      if i % 3 = p ∧ i / 3 < Nb then fine i + coarse (i / 3) else fine i := by
  unfold HipKernels_add_coarse_pressure_correction
  exact add_coarse_k_closed (ceilDivision Nb 64 * 64) 64 coarse fine p Nb hp
    (le_ceilDivision_mul Nb) (by have := le_ceilDivision_mul Nb; nlinarith) i

/-- `HipKernels::full_to_pressure_restriction` writes exactly the weighted
3-entry block sums into `coarse[0, Nb)`. -/
theorem HipKernels_restrict_closed (fine w coarse : ℕ → ℚ) (Nb i : ℕ) :
    HipKernels_full_to_pressure_restriction fine w coarse Nb i =
      if i < Nb then ∑ k ∈ Finset.range 3, fine (3 * i + k) * w (3 * i + k)
      else coarse i := by
  unfold HipKernels_full_to_pressure_restriction
  exact restrict_k_closed (ceilDivision Nb 64 * 64) 64 fine w coarse Nb
    (by have := le_ceilDivision_mul Nb; nlinarith) i

/-- `HipKernels::spmv` writes exactly the scalar CSR row sums into
`y[0, Nb)` (treating the matrix as block size 1, whatever `block_size` is). -/
theorem HipKernels_spmv_closed (vals : ℕ → ℚ) (cols rows : ℕ → ℕ) (x y : ℕ → ℚ)
    (Nb block_size i : ℕ) :
    HipKernels_spmv vals cols rows x y Nb block_size i =
      if i < Nb then ∑ j ∈ Finset.Ico (rows i) (rows (i + 1)), vals j * x (cols j)
      else y i := by
  unfold HipKernels_spmv
  rw [spmv_k_closed (ceilDivision Nb 64 * 64) 64 vals cols rows Nb x y
    (le_ceilDivision_mul Nb) i]
  by_cases h : i < Nb
  · rw [if_pos h, if_pos h, scalar_row_eq]
  · rw [if_neg h, if_neg h]

/-- `HipKernels::residual` on the scalar path (`block_size = 1`). -/
theorem HipKernels_residual_scalar_closed (warpsize : ℕ) (vals : ℕ → ℚ)
    (cols rows : ℕ → ℕ) (x rhs out : ℕ → ℚ) (Nb i : ℕ) :
    HipKernels_residual warpsize vals cols rows x rhs out Nb 1 i =
      if i < Nb then rhs i - ∑ j ∈ Finset.Ico (rows i) (rows (i + 1)), vals j * x (cols j)
      else out i := by
  unfold HipKernels_residual
  rw [if_neg (by norm_num)]
  rw [residual_k_closed (ceilDivision Nb 64 * 64) 64 vals cols rows Nb x rhs out
    (le_ceilDivision_mul Nb) i]
  by_cases h : i < Nb
  · rw [if_pos h, if_pos h, scalar_row_eq]
  · rw [if_neg h, if_neg h]

/-! ### The blocked reduction computes the 3×3 block row sums -/

/-- Width 64: after the reduction, scratch slot `L < 3` holds the component
`L` of the block row's matrix-vector product.  The offset-3 doubling sweep
sums the residue class of `L` mod 3 over the 64 lanes; lanes `63` (inactive)
contribute nothing and lanes `9k + 3c + L` carry the strided partial products
of block chain `k` and block column `c`. -/
theorem blocked_sum_64 (vals : ℕ → ℚ) (cols : ℕ → ℕ) (x : ℕ → ℚ) (first last L : ℕ)
    (hL : L < 3) :
    ∑ m ∈ Finset.range 32,
        (if L + m * 3 < 64 then blocked_local 64 3 vals cols x first last (L + m * 3) else 0) =
      ∑ block ∈ Finset.Ico first last, ∑ c ∈ Finset.range 3,
        x (cols block * 3 + c) * vals (block * 3 * 3 + c + L * 3) := by
  have hterm : ∀ m ∈ Finset.range 32,
      (if L + m * 3 < 64 then blocked_local 64 3 vals cols x first last (L + m * 3) else 0)
        = (if m < 21 then blocked_local 64 3 vals cols x first last (L + m * 3) else 0) := by
    intro m _
    by_cases hm : m < 21
    · rw [if_pos (by omega), if_pos hm]
    · rw [if_neg hm]
      by_cases hg : L + m * 3 < 64
      · rw [if_pos hg]
        unfold blocked_local
        rw [if_neg (by omega)]
      · rw [if_neg hg]
  have hbl : ∀ m ∈ Finset.range 21,
      blocked_local 64 3 vals cols x first last (L + m * 3)
        = forSum (fun block => x (cols block * 3 + m % 3) *
            vals (block * 3 * 3 + m % 3 + L * 3)) last 7 (last - first) (first + m / 3) := by
    intro m hm
    rw [Finset.mem_range] at hm
    unfold blocked_local
    rw [if_pos (by omega)]
    have e1 : (L + m * 3) / 3 % 3 = m % 3 := by omega
    have e2 : (L + m * 3) % 3 = L := by omega
    have e3 : (L + m * 3) / (3 * 3) = m / 3 := by omega
    have e4 : (64 : ℕ) / 3 / 3 = 7 := by norm_num
    simp only [e1, e2, e3, e4]
  have hkc : ∀ k ∈ Finset.range 7,
      (∑ c ∈ Finset.range 3,
        forSum (fun block => x (cols block * 3 + (3 * k + c) % 3) *
          vals (block * 3 * 3 + (3 * k + c) % 3 + L * 3)) last 7 (last - first)
          (first + (3 * k + c) / 3))
        = ∑ c ∈ Finset.range 3,
            forSum (fun block => x (cols block * 3 + c) *
              vals (block * 3 * 3 + c + L * 3)) last 7 (last - first) (first + k) := by
    intro k _
    refine Finset.sum_congr rfl fun c hc => ?_
    rw [Finset.mem_range] at hc
    have e5 : (3 * k + c) % 3 = c := by omega
    have e6 : (3 * k + c) / 3 = k := by omega
    simp only [e5, e6]
  have hpart : ∀ c ∈ Finset.range 3,
      (∑ k ∈ Finset.range 7,
        forSum (fun block => x (cols block * 3 + c) * vals (block * 3 * 3 + c + L * 3))
          last 7 (last - first) (first + k))
        = ∑ block ∈ Finset.Ico first last,
            x (cols block * 3 + c) * vals (block * 3 * 3 + c + L * 3) :=
    fun c _ => forSum_partition
      (fun block => x (cols block * 3 + c) * vals (block * 3 * 3 + c + L * 3))
      7 first last (by norm_num)
  exact Eq.trans (Finset.sum_congr rfl hterm) (Eq.trans
    (sum_if_range (fun m => blocked_local 64 3 vals cols x first last (L + m * 3)) 32 21
      (by norm_num))
    (Eq.trans (Finset.sum_congr rfl hbl) (Eq.trans
      (sum_range_mul 7 3 fun m =>
        forSum (fun block => x (cols block * 3 + m % 3) *
          vals (block * 3 * 3 + m % 3 + L * 3)) last 7 (last - first) (first + m / 3))
      (Eq.trans (Finset.sum_congr rfl hkc) (Eq.trans Finset.sum_comm
        (Eq.trans (Finset.sum_congr rfl hpart) Finset.sum_comm))))))

/-- Width 32: the same computation with 27 active lanes and 3 blocks per
warp; the doubling sweep stops at offset 24 (`offsetTarget = 32`). -/
theorem blocked_sum_32 (vals : ℕ → ℚ) (cols : ℕ → ℕ) (x : ℕ → ℚ) (first last L : ℕ)
    (hL : L < 3) :
    ∑ m ∈ Finset.range 16,
        (if L + m * 3 < 32 then blocked_local 32 3 vals cols x first last (L + m * 3) else 0) =
      ∑ block ∈ Finset.Ico first last, ∑ c ∈ Finset.range 3,
        x (cols block * 3 + c) * vals (block * 3 * 3 + c + L * 3) := by
  have hterm : ∀ m ∈ Finset.range 16,
      (if L + m * 3 < 32 then blocked_local 32 3 vals cols x first last (L + m * 3) else 0)
        = (if m < 9 then blocked_local 32 3 vals cols x first last (L + m * 3) else 0) := by
    intro m _
    by_cases hm : m < 9
    · rw [if_pos (by omega), if_pos hm]
    · rw [if_neg hm]
      by_cases hg : L + m * 3 < 32
      · rw [if_pos hg]
        unfold blocked_local
        rw [if_neg (by omega)]
      · rw [if_neg hg]
  have hbl : ∀ m ∈ Finset.range 9,
      blocked_local 32 3 vals cols x first last (L + m * 3)
        = forSum (fun block => x (cols block * 3 + m % 3) *
            vals (block * 3 * 3 + m % 3 + L * 3)) last 3 (last - first) (first + m / 3) := by
    intro m hm
    rw [Finset.mem_range] at hm
    unfold blocked_local
    rw [if_pos (by omega)]
    have e1 : (L + m * 3) / 3 % 3 = m % 3 := by omega
    have e2 : (L + m * 3) % 3 = L := by omega
    have e3 : (L + m * 3) / (3 * 3) = m / 3 := by omega
    have e4 : (32 : ℕ) / 3 / 3 = 3 := by norm_num
    simp only [e1, e2, e3, e4]
  have hkc : ∀ k ∈ Finset.range 3,
      (∑ c ∈ Finset.range 3,
        forSum (fun block => x (cols block * 3 + (3 * k + c) % 3) *
          vals (block * 3 * 3 + (3 * k + c) % 3 + L * 3)) last 3 (last - first)
          (first + (3 * k + c) / 3))
        = ∑ c ∈ Finset.range 3,
            forSum (fun block => x (cols block * 3 + c) *
              vals (block * 3 * 3 + c + L * 3)) last 3 (last - first) (first + k) := by
    intro k _
    refine Finset.sum_congr rfl fun c hc => ?_
    rw [Finset.mem_range] at hc
    have e5 : (3 * k + c) % 3 = c := by omega
    have e6 : (3 * k + c) / 3 = k := by omega
    simp only [e5, e6]
  have hpart : ∀ c ∈ Finset.range 3,
      (∑ k ∈ Finset.range 3,
        forSum (fun block => x (cols block * 3 + c) * vals (block * 3 * 3 + c + L * 3))
          last 3 (last - first) (first + k))
        = ∑ block ∈ Finset.Ico first last,
            x (cols block * 3 + c) * vals (block * 3 * 3 + c + L * 3) :=
    fun c _ => forSum_partition
      (fun block => x (cols block * 3 + c) * vals (block * 3 * 3 + c + L * 3))
      3 first last (by norm_num)
  exact Eq.trans (Finset.sum_congr rfl hterm) (Eq.trans
    (sum_if_range (fun m => blocked_local 32 3 vals cols x first last (L + m * 3)) 16 9
      (by norm_num))
    (Eq.trans (Finset.sum_congr rfl hbl) (Eq.trans
      (sum_range_mul 3 3 fun m =>
        forSum (fun block => x (cols block * 3 + m % 3) *
          vals (block * 3 * 3 + m % 3 + L * 3)) last 3 (last - first) (first + m / 3))
      (Eq.trans (Finset.sum_congr rfl hkc) (Eq.trans Finset.sum_comm
        (Eq.trans (Finset.sum_congr rfl hpart) Finset.sum_comm))))))

/-- The reduced scratch slot `L < 3` of a width-64 warp is the block row's
product component `L`. -/
theorem residual_blocked_tmp_64_eq (vals : ℕ → ℚ) (cols rows : ℕ → ℕ) (x : ℕ → ℚ)
    (tbr L : ℕ) (hL : L < 3) :
    residual_blocked_tmp 64 3 vals cols rows x tbr L =
      ∑ block ∈ Finset.Ico (rows tbr) (rows (tbr + 1)), ∑ c ∈ Finset.range 3,
        x (cols block * 3 + c) * vals (block * 3 * 3 + c + L * 3) := by
  unfold residual_blocked_tmp
  rw [show (if (64 : ℕ) = 64 then (48 : ℕ) else 32) = 48 from rfl]
  rw [bloopF_eval 64 48 5 3 48
    (fun lane => blocked_local 64 3 vals cols x (rows tbr) (rows (tbr + 1)) lane) L
    (by norm_num) (by omega) (by norm_num)
    (fun j hj => by interval_cases j <;> norm_num) (by norm_num)]
  exact blocked_sum_64 vals cols x (rows tbr) (rows (tbr + 1)) L hL

/-- The reduced scratch slot `L < 3` of a width-32 warp is the block row's
product component `L`. -/
theorem residual_blocked_tmp_32_eq (vals : ℕ → ℚ) (cols rows : ℕ → ℕ) (x : ℕ → ℚ)
    (tbr L : ℕ) (hL : L < 3) :
    residual_blocked_tmp 32 3 vals cols rows x tbr L =
      ∑ block ∈ Finset.Ico (rows tbr) (rows (tbr + 1)), ∑ c ∈ Finset.range 3,
        x (cols block * 3 + c) * vals (block * 3 * 3 + c + L * 3) := by
  unfold residual_blocked_tmp
  rw [show (if (32 : ℕ) = 64 then (48 : ℕ) else 32) = 32 from rfl]
  rw [bloopF_eval 32 32 4 3 32
    (fun lane => blocked_local 32 3 vals cols x (rows tbr) (rows (tbr + 1)) lane) L
    (by norm_num) (by omega) (by norm_num)
    (fun j hj => by interval_cases j <;> norm_num) (by norm_num)]
  exact blocked_sum_32 vals cols x (rows tbr) (rows (tbr + 1)) L hL

/-- `refBlockSpmv` at block size 1 is the scalar CSR row sum. -/
theorem refBlockSpmv_one (vals : ℕ → ℚ) (cols rows : ℕ → ℕ) (x : ℕ → ℚ) (i : ℕ) :
    refBlockSpmv 1 vals cols rows x i =
      ∑ j ∈ Finset.Ico (rows i) (rows (i + 1)), vals j * x (cols j) := by
  unfold refBlockSpmv
  rw [Nat.div_one]
  exact Finset.sum_congr rfl fun block _ => by
    rw [Finset.sum_range_one]
    simp [Nat.mod_one]

/-- The kernel-shaped 3×3 block row sum is the reference product component. -/
theorem blocked_row_ref (vals : ℕ → ℚ) (cols rows : ℕ → ℕ) (x : ℕ → ℚ) (i : ℕ) :
    ∑ block ∈ Finset.Ico (rows (i / 3)) (rows (i / 3 + 1)), ∑ c ∈ Finset.range 3,
      x (cols block * 3 + c) * vals (block * 3 * 3 + c + i % 3 * 3)
    = refBlockSpmv 3 vals cols rows x i := by
  unfold refBlockSpmv
  refine Finset.sum_congr rfl fun block _ => Finset.sum_congr rfl fun c _ => ?_
  rw [mul_comm, show block * 3 * 3 + c + i % 3 * 3 = block * 3 * 3 + i % 3 * 3 + c by ring]

/-- `HipKernels::residual` on the blocked path with block size 3 on a
width-64 device computes the reference blocked residual. -/
theorem HipKernels_residual_blocked3_closed (vals : ℕ → ℚ) (cols rows : ℕ → ℕ)
    (x rhs out : ℕ → ℚ) (Nb i : ℕ) :
    HipKernels_residual 64 vals cols rows x rhs out Nb 3 i =
      if i / 3 < Nb then rhs i - refBlockSpmv 3 vals cols rows x i else out i := by
  unfold HipKernels_residual
  rw [if_pos (by norm_num)]
  have hT : Nb ≤ ceilDivision Nb 64 * 64 * 64 / 64 := by
    rw [Nat.mul_div_cancel _ (by norm_num : (0 : ℕ) < 64)]
    exact le_ceilDivision_mul Nb
  rw [residual_blocked_k_closed 64 (ceilDivision Nb 64 * 64) 64 vals cols rows Nb x rhs
    out 3 hT i]
  by_cases h : i / 3 < Nb
  · rw [if_pos h, if_pos h,
      residual_blocked_tmp_64_eq vals cols rows x (i / 3) (i % 3) (Nat.mod_lt i (by norm_num)),
      blocked_row_ref vals cols rows x i]
  · rw [if_neg h, if_neg h]

/-! ## The claims -/

/-- C1 (corrected, counterexample): as stated the claim fails for block
size 3: on the single 3×3 identity block with `x = [1,2,3]`, `HipKernels::spmv`
(which always launches the scalar kernel `spmv_k` over `Nb` rows) leaves the
scalar output row 1 at its initial value `0`, whereas the reference block
product has `2` there. -/
theorem C1_counterexample :
    HipKernels_spmv vals3id cols1b rows01 x123 zeroV 1 3 1 ≠
      refBlockSpmv 3 vals3id cols1b rows01 x123 1 := by
  rw [HipKernels_spmv_closed vals3id cols1b rows01 x123 zeroV 1 3 1]
  unfold refBlockSpmv
  norm_num [rows01, cols1b, Finset.sum_Ico_eq_sum_range, Finset.sum_range_succ, vals3id,
    x123, zeroV, List.getD]

/-- C1 (amended): for every block-sparse matrix with block size 1 and every
compatible vector, `HipKernels::spmv` writes into `y` exactly the reference
matrix-vector product on rows `[0, Nb)` and leaves the rest of `y` unchanged —
the kernel ignores its `block_size` argument and is correct only for block
size 1; in particular on the 2×2 example with values `[[4,1],[2,3]]` and
`x = [1,1]` it yields `[5,5]`. -/
theorem C1_spmv_corrected :
    (∀ (vals : ℕ → ℚ) (cols rows : ℕ → ℕ) (x y : ℕ → ℚ) (Nb block_size i : ℕ),
      HipKernels_spmv vals cols rows x y Nb block_size i =
        if i < Nb then refBlockSpmv 1 vals cols rows x i else y i)
    ∧ HipKernels_spmv vals2x2 cols2x2 rows2x2 x11 zeroV 2 1 0 = 5
    ∧ HipKernels_spmv vals2x2 cols2x2 rows2x2 x11 zeroV 2 1 1 = 5 := by
  refine ⟨fun vals cols rows x y Nb block_size i => ?_, ?_, ?_⟩
  · rw [HipKernels_spmv_closed vals cols rows x y Nb block_size i,
      refBlockSpmv_one vals cols rows x i]
  · rw [HipKernels_spmv_closed vals2x2 cols2x2 rows2x2 x11 zeroV 2 1 0]
    norm_num [rows2x2, vals2x2, cols2x2, x11, zeroV, Finset.sum_Ico_eq_sum_range,
      Finset.sum_range_succ, List.getD]
  · rw [HipKernels_spmv_closed vals2x2 cols2x2 rows2x2 x11 zeroV 2 1 1]
    norm_num [rows2x2, vals2x2, cols2x2, x11, zeroV, Finset.sum_Ico_eq_sum_range,
      Finset.sum_range_succ, List.getD]

/-- C2 (corrected, counterexample): the blocked path is not correct for every
block size > 1: for a single 2×2 block `[[1,2],[3,4]]` with `x = [1,1]` and
`rhs = 0`, the kernel's offset-3 reduction mixes the wrong lanes and row 0 of
the residual comes out `-5` instead of the reference `-3`. -/
theorem C2_counterexample :
    HipKernels_residual 64 valsB2 cols1b rows01 x11 zeroV zeroV 1 2 0 ≠
      zeroV 0 - refBlockSpmv 2 valsB2 cols1b rows01 x11 0 := by
  unfold HipKernels_residual
  rw [if_pos (by norm_num)]
  have hT : (1 : ℕ) ≤ ceilDivision 1 64 * 64 * 64 / 64 := by norm_num [ceilDivision]
  rw [residual_blocked_k_closed 64 (ceilDivision 1 64 * 64) 64 valsB2 cols1b rows01 1 x11
    zeroV zeroV 2 hT 0]
  have htmp : residual_blocked_tmp 64 2 valsB2 cols1b rows01 x11 0 0 = 5 := by
    unfold residual_blocked_tmp
    rw [show (if (64 : ℕ) = 64 then (48 : ℕ) else 32) = 48 from rfl]
    rw [bloopF_eval 64 48 5 3 48 _ 0 (by norm_num) (by norm_num) (by norm_num)
      (fun j hj => by interval_cases j <;> norm_num) (by norm_num)]
    norm_num [blocked_local, forSum, valsB2, cols1b, rows01, x11, List.getD,
      Finset.sum_range_succ]
  rw [show (0 : ℕ) / 2 = 0 from rfl, show (0 : ℕ) % 2 = 0 from rfl,
    if_pos (by norm_num : (0 : ℕ) < 1), htmp]
  unfold refBlockSpmv
  norm_num [rows01, cols1b, Finset.sum_Ico_eq_sum_range, Finset.sum_range_succ, valsB2,
    x11, zeroV, List.getD]

/-- C2 (amended): `HipKernels::residual` equals `rhs` minus the reference
matrix-vector product for the scalar path (block size 1) and for the blocked
path with block size 3 (the block size the offset-3 reduction is built for),
leaving all other positions of `out` unchanged; in particular the 2×2 scalar
example with `rhs = [10,10]` yields `[5,5]`. -/
theorem C2_residual_corrected :
    (∀ (vals : ℕ → ℚ) (cols rows : ℕ → ℕ) (x rhs out : ℕ → ℚ) (Nb i : ℕ),
      HipKernels_residual 64 vals cols rows x rhs out Nb 1 i =
        if i < Nb then rhs i - refBlockSpmv 1 vals cols rows x i else out i)
    ∧ (∀ (vals : ℕ → ℚ) (cols rows : ℕ → ℕ) (x rhs out : ℕ → ℚ) (Nb i : ℕ),
      HipKernels_residual 64 vals cols rows x rhs out Nb 3 i =
        if i / 3 < Nb then rhs i - refBlockSpmv 3 vals cols rows x i else out i)
    ∧ HipKernels_residual 64 vals2x2 cols2x2 rows2x2 x11 rhs1010 zeroV 2 1 0 = 5
    ∧ HipKernels_residual 64 vals2x2 cols2x2 rows2x2 x11 rhs1010 zeroV 2 1 1 = 5 := by
  refine ⟨fun vals cols rows x rhs out Nb i => ?_,
    fun vals cols rows x rhs out Nb i => HipKernels_residual_blocked3_closed vals cols rows
      x rhs out Nb i, ?_, ?_⟩
  · rw [HipKernels_residual_scalar_closed 64 vals cols rows x rhs out Nb i,
      refBlockSpmv_one vals cols rows x i]
  · rw [HipKernels_residual_scalar_closed 64 vals2x2 cols2x2 rows2x2 x11 rhs1010 zeroV 2 0]
    norm_num [rows2x2, vals2x2, cols2x2, x11, rhs1010, zeroV, Finset.sum_Ico_eq_sum_range,
      Finset.sum_range_succ, List.getD]
  · rw [HipKernels_residual_scalar_closed 64 vals2x2 cols2x2 rows2x2 x11 rhs1010 zeroV 2 1]
    norm_num [rows2x2, vals2x2, cols2x2, x11, rhs1010, zeroV, Finset.sum_Ico_eq_sum_range,
      Finset.sum_range_succ, List.getD]

/-- C3 (corrected, counterexample): even parameterised with warp width 32 —
taken in its faithful one-warp-per-group configuration (`blockDim = 32`, each
warp owning its group's scratch) — the blocked kernel is wrong for block
size 2: on the same 2×2 block instance as C2, row 0 gives `-5` instead of the
reference `-3`, because the reduction offsets start at the hardcoded 3. -/
theorem C3_counterexample :
    residual_blocked_k 32 (ceilDivision 1 32 * 32) 32 valsB2 cols1b rows01 1 x11 zeroV
        zeroV 2 0 ≠
      zeroV 0 - refBlockSpmv 2 valsB2 cols1b rows01 x11 0 := by
  have hT : (1 : ℕ) ≤ ceilDivision 1 32 * 32 * 32 / 32 := by norm_num [ceilDivision]
  rw [residual_blocked_k_closed 32 (ceilDivision 1 32 * 32) 32 valsB2 cols1b rows01 1 x11
    zeroV zeroV 2 hT 0]
  have htmp : residual_blocked_tmp 32 2 valsB2 cols1b rows01 x11 0 0 = 5 := by
    unfold residual_blocked_tmp
    rw [show (if (32 : ℕ) = 64 then (48 : ℕ) else 32) = 32 from rfl]
    rw [bloopF_eval 32 32 4 3 32 _ 0 (by norm_num) (by norm_num) (by norm_num)
      (fun j hj => by interval_cases j <;> norm_num) (by norm_num)]
    norm_num [blocked_local, forSum, valsB2, cols1b, rows01, x11, List.getD,
      Finset.sum_range_succ]
  rw [show (0 : ℕ) / 2 = 0 from rfl, show (0 : ℕ) % 2 = 0 from rfl,
    if_pos (by norm_num : (0 : ℕ) < 1), htmp]
  unfold refBlockSpmv
  norm_num [rows01, cols1b, Finset.sum_Ico_eq_sum_range, Finset.sum_range_succ, valsB2,
    x11, zeroV, List.getD]

/-- C3 (amended): for block size 3 — the block size the kernel's reduction is
built for — the blocked residual kernel is correct at both native widths, in
the launch configurations where each thread group holds one warp and so owns
its group-shared scratch array exclusively: width 32 with 32-thread groups,
and width 64 with the host's 64-thread groups.  In both,
`out[row] = rhs[row] - (matrix*x)[row]` on every scalar row of every block
row, with the active-thread count `(warpsize/bs/bs)*bs*bs` and the reduction
bound (`48` for width 64, `32` otherwise) taken from the width parameter.
(Width 32 with 64-thread groups, the unmodified host geometry, makes the two
warps of each group race on the shared scratch for `Nb ≥ 2`; that data race
is outside this sequential embedding, and the kernel is not asserted correct
there.) -/
theorem C3_blocked_corrected :
    (∀ (vals : ℕ → ℚ) (cols rows : ℕ → ℕ) (x rhs out : ℕ → ℚ) (Nb i : ℕ),
      residual_blocked_k 32 (ceilDivision Nb 32 * 32) 32 vals cols rows Nb x rhs out 3 i =
        if i / 3 < Nb then rhs i - refBlockSpmv 3 vals cols rows x i else out i)
    ∧ (∀ (vals : ℕ → ℚ) (cols rows : ℕ → ℕ) (x rhs out : ℕ → ℚ) (Nb i : ℕ),
      residual_blocked_k 64 (ceilDivision Nb 64 * 64) 64 vals cols rows Nb x rhs out 3 i =
        if i / 3 < Nb then rhs i - refBlockSpmv 3 vals cols rows x i else out i) := by
  constructor
  · intro vals cols rows x rhs out Nb i
    have hT : Nb ≤ ceilDivision Nb 32 * 32 * 32 / 32 := by
      rw [Nat.mul_div_cancel _ (by norm_num : (0 : ℕ) < 32)]
      exact le_ceilDivision_mul32 Nb
    rw [residual_blocked_k_closed 32 (ceilDivision Nb 32 * 32) 32 vals cols rows Nb x rhs
      out 3 hT i]
    by_cases h : i / 3 < Nb
    · rw [if_pos h, if_pos h,
        residual_blocked_tmp_32_eq vals cols rows x (i / 3) (i % 3)
          (Nat.mod_lt i (by norm_num)),
        blocked_row_ref vals cols rows x i]
    · rw [if_neg h, if_neg h]
  · intro vals cols rows x rhs out Nb i
    have hT : Nb ≤ ceilDivision Nb 64 * 64 * 64 / 64 := by
      rw [Nat.mul_div_cancel _ (by norm_num : (0 : ℕ) < 64)]
      exact le_ceilDivision_mul Nb
    rw [residual_blocked_k_closed 64 (ceilDivision Nb 64 * 64) 64 vals cols rows Nb x rhs
      out 3 hT i]
    by_cases h : i / 3 < Nb
    · rw [if_pos h, if_pos h,
        residual_blocked_tmp_64_eq vals cols rows x (i / 3) (i % 3)
          (Nat.mod_lt i (by norm_num)),
        blocked_row_ref vals cols rows x i]
    · rw [if_neg h, if_neg h]

/-- C4 (corrected, counterexample): on `fine = [1,2,3]` with one block row,
all weights 1 and offset 0, the restrict-then-inject round trip increments
slot 0 by the whole block sum `6`, not by the pre-restriction value `1`. -/
theorem C4_counterexample :
    HipKernels_add_coarse_pressure_correction
        (HipKernels_full_to_pressure_restriction x123 oneV zeroV 1) x123 0 1 0 ≠
      x123 0 + x123 0 := by
  rw [HipKernels_add_coarse_closed (HipKernels_full_to_pressure_restriction x123 oneV
    zeroV 1) x123 0 1 (by norm_num) 0]
  rw [if_pos (by norm_num)]
  rw [show (0 : ℕ) / 3 = 0 from rfl]
  rw [HipKernels_restrict_closed x123 oneV zeroV 1 0, if_pos (by norm_num)]
  norm_num [x123, oneV, Finset.sum_range_succ, List.getD]

/-- C4 (amended): `restrictToPressure` with all weights 1 followed by
`injectCoarseCorrection` with offset `p < 3` increments
`fineVector[3*row + p]` by the sum of the three pre-restriction entries of
that block (not just the entry at offset `p`), and leaves every other slot of
the fine vector unchanged. -/
theorem C4_roundtrip_corrected :
    ∀ (fine coarse0 : ℕ → ℚ) (Nb p : ℕ), p < 3 → ∀ i,
      HipKernels_add_coarse_pressure_correction
          (HipKernels_full_to_pressure_restriction fine oneV coarse0 Nb) fine p Nb i =
        if i % 3 = p ∧ i / 3 < Nb then
          fine i + ∑ k ∈ Finset.range 3, fine (3 * (i / 3) + k)
        else fine i := by
  intro fine coarse0 Nb p hp i
  rw [HipKernels_add_coarse_closed (HipKernels_full_to_pressure_restriction fine oneV
    coarse0 Nb) fine p Nb hp i]
  by_cases h : i % 3 = p ∧ i / 3 < Nb
  · rw [if_pos h, if_pos h, HipKernels_restrict_closed fine oneV coarse0 Nb (i / 3),
      if_pos h.2]
    simp [oneV]
  · rw [if_neg h, if_neg h]

/-- C4 witness: the round trip on `[1,2,3]` with offset 0 yields `1 + 6 = 7`
at the pressure slot. -/
theorem C4_witness :
    HipKernels_add_coarse_pressure_correction
        (HipKernels_full_to_pressure_restriction x123 oneV zeroV 1) x123 0 1 0 = 7 := by
  rw [C4_roundtrip_corrected x123 zeroV 1 0 (by norm_num) 0, if_pos (by norm_num)]
  norm_num [x123, Finset.sum_range_succ, List.getD]

/-- C5 (confirmed): `restrictToPressure` writes
`coarse[row] = Σ_{k<3} fine[3*row+k] * weights[3*row+k]` for every block row
below `Nb` and nothing else; on the single 3×3 block with `fine = [1,2,3]` and
unit weights the coarse scalar is 6, and injecting it at offset 0 onto a
zeroed fine vector yields `[6,0,0]`. -/
theorem C5_restrict_confirmed :
    (∀ (fine w coarse : ℕ → ℚ) (Nb i : ℕ),
      HipKernels_full_to_pressure_restriction fine w coarse Nb i =
        if i < Nb then ∑ k ∈ Finset.range 3, fine (3 * i + k) * w (3 * i + k)
        else coarse i)
    ∧ HipKernels_full_to_pressure_restriction x123 oneV zeroV 1 0 = 6
    ∧ HipKernels_add_coarse_pressure_correction
        (HipKernels_full_to_pressure_restriction x123 oneV zeroV 1) zeroV 0 1 0 = 6
    ∧ HipKernels_add_coarse_pressure_correction
        (HipKernels_full_to_pressure_restriction x123 oneV zeroV 1) zeroV 0 1 1 = 0
    ∧ HipKernels_add_coarse_pressure_correction
        (HipKernels_full_to_pressure_restriction x123 oneV zeroV 1) zeroV 0 1 2 = 0 := by
  refine ⟨HipKernels_restrict_closed, ?_, ?_, ?_, ?_⟩
  · rw [HipKernels_restrict_closed x123 oneV zeroV 1 0, if_pos (by norm_num)]
    norm_num [x123, oneV, Finset.sum_range_succ, List.getD]
  · rw [HipKernels_add_coarse_closed (HipKernels_full_to_pressure_restriction x123 oneV
      zeroV 1) zeroV 0 1 (by norm_num) 0, if_pos (by norm_num),
      show (0 : ℕ) / 3 = 0 from rfl,
      HipKernels_restrict_closed x123 oneV zeroV 1 0, if_pos (by norm_num)]
    norm_num [x123, oneV, zeroV, Finset.sum_range_succ, List.getD]
  · rw [HipKernels_add_coarse_closed (HipKernels_full_to_pressure_restriction x123 oneV
      zeroV 1) zeroV 0 1 (by norm_num) 1, if_neg (by norm_num)]
    rfl
  · rw [HipKernels_add_coarse_closed (HipKernels_full_to_pressure_restriction x123 oneV
      zeroV 1) zeroV 0 1 (by norm_num) 2, if_neg (by norm_num)]
    rfl

/-- C6 (confirmed): `prolongate_vector` adds `coarse[cols[i]]` to `fine[i]`
for every `i < n` and changes nothing else; with the identity column map it is
exactly elementwise addition of the coarse vector on `[0, n)`. -/
theorem C6_prolongate_confirmed :
    (∀ (inV out : ℕ → ℚ) (cols : ℕ → ℕ) (N i : ℕ),
      HipKernels_prolongate_vector inV out cols N i =
        if i < N then out i + inV (cols i) else out i)
    ∧ (∀ (inV out : ℕ → ℚ) (N i : ℕ),
      HipKernels_prolongate_vector inV out (fun j => j) N i =
        if i < N then out i + inV i else out i) := by
  refine ⟨HipKernels_prolongate_vector_closed, fun inV out N i => ?_⟩
  rw [HipKernels_prolongate_vector_closed inV out (fun j => j) N i]

/-- C7 (confirmed): `vmul` updates `out[i]` to
`out[i] + alpha * in1[i] * in2[i]` for every `i < N`, touches no other index,
and with `alpha = 0` leaves `out` unchanged. -/
theorem C7_vmul_confirmed :
    (∀ (alpha : ℚ) (in1 in2 out : ℕ → ℚ) (N i : ℕ),
      HipKernels_vmul alpha in1 in2 out N i =
        if i < N then out i + alpha * in1 i * in2 i else out i)
    ∧ (∀ (in1 in2 out : ℕ → ℚ) (N i : ℕ),
      HipKernels_vmul 0 in1 in2 out N i = out i) := by
  refine ⟨HipKernels_vmul_closed, fun in1 in2 out N i => ?_⟩
  rw [HipKernels_vmul_closed 0 in1 in2 out N i]
  split <;> ring

set_option maxRecDepth 16384 in
set_option maxHeartbeats 1600000 in
/-- C8 (corrected, counterexample): the result is not independent of the
thread-group count: the kernels stride by `gridDim.x` while `gridDim * blockDim`
threads start, so with few groups an index is claimed by several threads.
`vmul_k` with `alpha = 1`, `in1 = in2 = 1`, `out = 0`, `N = 2` gives
`out[1] = 2` with one group of 64 threads but `out[1] = 1` with two. -/
theorem C8_counterexample :
    vmul_k 1 64 1 oneV oneV zeroV 2 1 ≠ vmul_k 2 64 1 oneV oneV zeroV 2 1 := by
  norm_num [vmul_k, grid, strideLoop, vmul_body, oneV, zeroV, ite_apply]

/-- C8 (amended): the launch-configuration independence holds for group
counts that cover the input, as the host launch (`P = ceilDivision(N,64)*64 ≥ N`)
always guarantees: for any two group counts `P, Q ≥ N` (resp. `≥ Nb`), the
four grid-stride kernels produce identical outputs, each index being
processed exactly once (both runs equal the single-update closed form). -/
theorem C8_launch_invariance :
    (∀ (P Q N : ℕ) (alpha : ℚ) (in1 in2 out : ℕ → ℚ), N ≤ P → N ≤ Q → ∀ i,
      vmul_k P 64 alpha in1 in2 out N i = vmul_k Q 64 alpha in1 in2 out N i)
    ∧ (∀ (P Q Nb : ℕ) (fine w coarse : ℕ → ℚ), Nb ≤ P → Nb ≤ Q → ∀ i,
      full_to_pressure_restriction_k P 64 fine w coarse Nb i =
        full_to_pressure_restriction_k Q 64 fine w coarse Nb i)
    ∧ (∀ (P Q Nb p : ℕ) (coarse fine : ℕ → ℚ), p < 3 → Nb ≤ P → Nb ≤ Q → ∀ i,
      add_coarse_pressure_correction_k P 64 coarse fine p Nb i =
        add_coarse_pressure_correction_k Q 64 coarse fine p Nb i)
    ∧ (∀ (P Q N : ℕ) (inV out : ℕ → ℚ) (cols : ℕ → ℕ), N ≤ P → N ≤ Q → ∀ i,
      prolongate_vector_k P 64 inV out cols N i = prolongate_vector_k Q 64 inV out cols N i) := by
  refine ⟨fun P Q N alpha in1 in2 out hP hQ i => ?_, fun P Q Nb fine w coarse hP hQ i => ?_,
    fun P Q Nb p coarse fine hp hP hQ i => ?_, fun P Q N inV out cols hP hQ i => ?_⟩
  · rw [vmul_k_closed P 64 alpha in1 in2 out N hP (by nlinarith) i,
      vmul_k_closed Q 64 alpha in1 in2 out N hQ (by nlinarith) i]
  · rw [restrict_k_closed P 64 fine w coarse Nb (by nlinarith) i,
      restrict_k_closed Q 64 fine w coarse Nb (by nlinarith) i]
  · rw [add_coarse_k_closed P 64 coarse fine p Nb hp hP (by nlinarith) i,
      add_coarse_k_closed Q 64 coarse fine p Nb hp hQ (by nlinarith) i]
  · rw [prolongate_vector_k_closed P 64 inV out cols N hP (by nlinarith) i,
      prolongate_vector_k_closed Q 64 inV out cols N hQ (by nlinarith) i]

/-- C8 witness: two covering group counts, 2 and 3, agree on a concrete
input. -/
theorem C8_witness :
    vmul_k 2 64 1 oneV oneV zeroV 1 0 = vmul_k 3 64 1 oneV oneV zeroV 1 0 :=
  C8_launch_invariance.1 2 3 1 1 oneV oneV zeroV (by norm_num) (by norm_num) 0

/-- C9 (confirmed): compiled without device support, each of the six entry
points fails immediately with an error naming its operation (the `#else`
branch throws before touching any output), and so never returns a vector. -/
theorem C9_nohip_confirmed :
    (∀ (alpha : ℚ) (in1 in2 out : ℕ → ℚ) (N : ℕ),
      vmul_noHip alpha in1 in2 out N = Except.error (unsupportedMsg "vmul"))
    ∧ (∀ (fine w coarse : ℕ → ℚ) (Nb : ℕ),
      full_to_pressure_restriction_noHip fine w coarse Nb =
        Except.error (unsupportedMsg "full_to_pressure_restriction"))
    ∧ (∀ (coarse fine : ℕ → ℚ) (p Nb : ℕ),
      add_coarse_pressure_correction_noHip coarse fine p Nb =
        Except.error (unsupportedMsg "add_coarse_pressure_correction"))
    ∧ (∀ (inV out : ℕ → ℚ) (cols : ℕ → ℕ) (N : ℕ),
      prolongate_vector_noHip inV out cols N =
        Except.error (unsupportedMsg "prolongate_vector"))
    ∧ (∀ (vals : ℕ → ℚ) (cols rows : ℕ → ℕ) (x rhs out : ℕ → ℚ) (Nb bs : ℕ),
      residual_noHip vals cols rows x rhs out Nb bs =
        Except.error (unsupportedMsg "residual"))
    ∧ (∀ (vals : ℕ → ℚ) (cols rows : ℕ → ℕ) (x y : ℕ → ℚ) (Nb bs : ℕ),
      spmv_noHip vals cols rows x y Nb bs = Except.error (unsupportedMsg "spmv")) :=
  ⟨fun _ _ _ _ _ => rfl, fun _ _ _ _ => rfl, fun _ _ _ _ => rfl, fun _ _ _ _ => rfl,
    fun _ _ _ _ _ _ _ _ => rfl, fun _ _ _ _ _ _ _ => rfl⟩

/-- C10 (confirmed): the pressure restriction and correction injection use
the hardcoded block size 3 regardless of their arguments — restriction sums
exactly the three fine entries of each block row and injection writes exactly
`fine[3*row + p]` — and consequently neither matches the block-size-2
reference on a block-size-2 vector. -/
theorem C10_hardcoded3_confirmed :
    (∀ (fine w coarse : ℕ → ℚ) (Nb i : ℕ),
      HipKernels_full_to_pressure_restriction fine w coarse Nb i =
        if i < Nb then refRestrict 3 fine w i else coarse i)
    ∧ (∀ (coarse fine : ℕ → ℚ) (p Nb : ℕ), p < 3 → ∀ i,
      HipKernels_add_coarse_pressure_correction coarse fine p Nb i =
        refInject 3 coarse fine p Nb i)
    ∧ HipKernels_full_to_pressure_restriction fine1234 oneV zeroV 2 0 ≠
        refRestrict 2 fine1234 oneV 0
    ∧ HipKernels_add_coarse_pressure_correction coarse57 zeroV 0 2 2 ≠
        refInject 2 coarse57 zeroV 0 2 2 := by
  refine ⟨fun fine w coarse Nb i => ?_, fun coarse fine p Nb hp i => ?_, ?_, ?_⟩
  · rw [HipKernels_restrict_closed fine w coarse Nb i]
    unfold refRestrict
    rfl
  · rw [HipKernels_add_coarse_closed coarse fine p Nb hp i]
    unfold refInject
    rfl
  · rw [HipKernels_restrict_closed fine1234 oneV zeroV 2 0, if_pos (by norm_num)]
    unfold refRestrict
    norm_num [fine1234, oneV, Finset.sum_range_succ, List.getD]
  · rw [HipKernels_add_coarse_closed coarse57 zeroV 0 2 (by norm_num) 2,
      if_neg (by norm_num)]
    unfold refInject
    norm_num [coarse57, zeroV, List.getD]

/-- C10 witness: injecting `[5,7]` at offset 0 writes `7` at fine index 3
(block row 1, hardcoded stride 3). -/
theorem C10_witness :
    HipKernels_add_coarse_pressure_correction coarse57 zeroV 0 2 3 = 7 := by
  rw [C10_hardcoded3_confirmed.2.1 coarse57 zeroV 0 2 (by norm_num) 3]
  unfold refInject
  norm_num [coarse57, zeroV, List.getD]

end HipK
